import Mathlib

/-!
Shallow embedding of the Temporal Portfolio Ledger (a stock-market
"time machine" web game).  Source files: the main UI/ledger module
(`src/unnamed/part_000`) and the persistence layer (`src/web/src/db.ts`).

Modelling conventions:
* The source stores dates as ISO `YYYY-MM-DD` strings and compares them
  lexicographically.  For zero-padded in-range dates this coincides with
  numeric comparison of the triple `(y, m, d)`, so a date is embedded as a
  structure of three naturals and compared through `Date.code`.
* JS numbers are embedded as `ℚ`; `x.toFixed(n)` and
  `Math.round(x / step) * step` are embedded with Mathlib's `round`
  (`round x = ⌊x + 1/2⌋`, which is exactly JS `Math.round`).
* `async` functions are pure here: the IndexedDB stores (system record,
  holdings, transactions, prices) are passed in and returned explicitly.
-/

namespace NewGame

/-- Calendar date, embedding the source's `YYYY-MM-DD` strings. -/
structure Date where
  y : Nat
  m : Nat
  d : Nat
deriving DecidableEq, Repr

/-- Numeric code of a date; for valid zero-padded dates, comparison of codes
equals the lexicographic string comparison used throughout the source. -/
def Date.code (dt : Date) : Nat := dt.y * 10000 + dt.m * 100 + dt.d

/-- Is the year a Gregorian leap year (JS `Date` calendar). -/
def isLeap (y : Nat) : Bool := (y % 4 = 0 && y % 100 != 0) || y % 400 = 0

/-- Days in a month of the proleptic Gregorian calendar, as JS `Date` uses. -/
def daysInMonth (y : Nat) (m : Nat) : Nat :=
  if m = 2 then (if isLeap y then 29 else 28)
  else if m = 4 ∨ m = 6 ∨ m = 9 ∨ m = 11 then 30
  else 31

/-- A well-formed calendar date (every date built by the source's date
arithmetic is of this shape). -/
def Date.Valid (dt : Date) : Prop :=
  1 ≤ dt.m ∧ dt.m ≤ 12 ∧ 1 ≤ dt.d ∧ dt.d ≤ daysInMonth dt.y dt.m

instance (dt : Date) : Decidable dt.Valid := by
  unfold Date.Valid; infer_instance

/-- Days before month `m` in year `y` (cumulative month lengths). -/
def daysBeforeMonth (y : Nat) (m : Nat) : Nat :=
  let base :=
    if m ≤ 1 then 0 else if m = 2 then 31 else if m = 3 then 59
    else if m = 4 then 90 else if m = 5 then 120 else if m = 6 then 151
    else if m = 7 then 181 else if m = 8 then 212 else if m = 9 then 243
    else if m = 10 then 273 else if m = 11 then 304 else 334
  base + (if 3 ≤ m ∧ isLeap y then 1 else 0)

/-- Leap years in `1..y`. -/
def leapsBefore (y : Nat) : Nat := y / 4 - y / 100 + y / 400

/-- Serial day count of a civil date (day 0 = 0001-01-01); the JS epoch-based
timestamp differs from this count only by a constant. -/
def dayNumber (dt : Date) : Nat :=
  365 * (dt.y - 1) + leapsBefore (dt.y - 1) + daysBeforeMonth dt.y dt.m + (dt.d - 1)

/-- Day of week as JS `getUTCDay` (0 = Sunday .. 6 = Saturday); the offset is
calibrated so that 2000-01-03 (the game's start date) is a Monday. -/
def weekday (dt : Date) : Nat := (dayNumber dt + 1) % 7

/-- Source `isWeekend`: `getUTCDay()` is 0 or 6. -/
def isWeekend (dt : Date) : Bool := weekday dt = 0 || weekday dt = 6

/-- Source constant `GAME_START_DATE = '2000-01-03'`. -/
def gameStartDate : Date := ⟨2000, 1, 3⟩

/-- Source constant `MAX_DATE = '2025-10-01'`. -/
def maxDate : Date := ⟨2025, 10, 1⟩

/-- Source `clampDate`: `dateStr > MAX_DATE ? MAX_DATE : dateStr`. -/
def clampDate (dt : Date) : Date := if maxDate.code < dt.code then maxDate else dt

/-- The successor day in the civil calendar. -/
def nextDay (dt : Date) : Date :=
  if dt.d < daysInMonth dt.y dt.m then ⟨dt.y, dt.m, dt.d + 1⟩
  else if dt.m < 12 then ⟨dt.y, dt.m + 1, 1⟩
  else ⟨dt.y + 1, 1, 1⟩

/-- Adding `n` days via JS `setUTCDate(getUTCDate() + n)` (non-negative `n`,
the only case the source uses) is `n` civil-calendar successor steps. -/
def plusDaysRaw (dt : Date) (n : Nat) : Date := Nat.iterate nextDay n dt

/-- Source `plusDays` (adds days then clamps to `MAX_DATE`). -/
def plusDays (dt : Date) (n : Nat) : Date := clampDate (plusDaysRaw dt n)

/-- JS `setUTCMonth(getUTCMonth() + k)`: keep the day-of-month and normalise;
a day beyond the target month's length rolls into the following month
(e.g. Jan 31 + 1 month = Mar 2/3), exactly as JS date normalisation does. -/
def addMonthsRaw (dt : Date) (k : Nat) : Date :=
  let t := (dt.m - 1) + k
  let y := dt.y + t / 12
  let m := t % 12 + 1
  if dt.d ≤ daysInMonth y m then ⟨y, m, dt.d⟩
  else
    let d' := dt.d - daysInMonth y m
    if m < 12 then ⟨y, m + 1, d'⟩ else ⟨y + 1, 1, d'⟩

/-- Source `addMonths` (month shift then clamp to `MAX_DATE`). -/
def addMonths (dt : Date) (k : Nat) : Date := clampDate (addMonthsRaw dt k)

/-! ### Price index -/

/-- One entry of a per-instrument price series (`PricePointDTO`). -/
structure PricePoint where
  date : Date
  price : ℚ
deriving DecidableEq, Repr

/-- The binary-search loop of `getPriceAtOrBefore`.  The source iterates with
`left`/`right` and `right` reaching `-1`; here `right1 = right + 1` so both
bounds stay natural numbers (`left ≤ right` becomes `left < right1`, and
`mid = floor((left + right) / 2)` becomes `(left + right1 - 1) / 2`).  The
interval shrinks every iteration, so running it on `fuel ≥ right1 - left`
(the wrapper passes the series length) is the untruncated loop. -/
def bsGo (series : List PricePoint) (dt : Date) :
    Nat → Nat → Nat → Option PricePoint → Option PricePoint
  | 0, _, _, cand => cand
  | fuel + 1, left, right1, cand =>
    if left < right1 then
      let mid := (left + right1 - 1) / 2
      if hm : mid < series.length then
        let p := series.get ⟨mid, hm⟩
        if p.date.code ≤ dt.code then bsGo series dt fuel (mid + 1) right1 (some p)
        else bsGo series dt fuel left mid cand
      else cand
    else cand

/-- Source `getPriceAtOrBefore`: binary search for the last price point whose
date is `≤ dt`. -/
def getPriceAtOrBefore (series : List PricePoint) (dt : Date) : Option ℚ :=
  (bsGo series dt series.length 0 series.length none).map (fun p => p.price)

/-- Loop invariant of the binary search: entries left of `left` are `≤ dt`,
entries at or right of `right1` are `> dt`, and the best candidate so far is
the entry just left of `left` (or nothing when `left = 0`). -/
lemma bsGo_spec (series : List PricePoint) (dt : Date)
    (hs : ∀ i j (hi : i < series.length) (hj : j < series.length), i < j →
      (series.get ⟨i, hi⟩).date.code < (series.get ⟨j, hj⟩).date.code)
    (n : Nat) :
    ∀ left right1 cand, right1 - left ≤ n → left ≤ right1 → right1 ≤ series.length →
    (∀ i (h : i < series.length), i < left → (series.get ⟨i, h⟩).date.code ≤ dt.code) →
    (∀ i (h : i < series.length), right1 ≤ i → dt.code < (series.get ⟨i, h⟩).date.code) →
    ((left = 0 ∧ cand = none) ∨ (0 < left ∧ cand = series.get? (left - 1))) →
    ∃ L, L ≤ series.length ∧
      (∀ i (h : i < series.length), i < L → (series.get ⟨i, h⟩).date.code ≤ dt.code) ∧
      (∀ i (h : i < series.length), L ≤ i → dt.code < (series.get ⟨i, h⟩).date.code) ∧
      ((L = 0 ∧ bsGo series dt n left right1 cand = none) ∨
        (0 < L ∧ bsGo series dt n left right1 cand = series.get? (L - 1))) := by
  induction n with
  | zero =>
    intro left right1 cand hn hlr hr hleft hright hcand
    refine ⟨left, by omega, hleft, fun i h hi => hright i h (by omega), ?_⟩
    simpa [bsGo] using hcand
  | succ n ih =>
    intro left right1 cand hn hlr hr hleft hright hcand
    rw [bsGo]
    by_cases h : left < right1
    · rw [if_pos h]
      have hmidlt : (left + right1 - 1) / 2 < series.length := by omega
      simp only [hmidlt, dif_pos]
      by_cases hcmp :
          (series.get ⟨(left + right1 - 1) / 2, hmidlt⟩).date.code ≤ dt.code
      · rw [if_pos hcmp]
        apply ih ((left + right1 - 1) / 2 + 1) right1 _ (by omega) (by omega) hr
        · intro i hilen hi
          rcases Nat.lt_or_ge i ((left + right1 - 1) / 2) with hlt | hge
          · exact le_of_lt (lt_of_lt_of_le (hs i _ hilen hmidlt hlt) hcmp)
          · have : i = (left + right1 - 1) / 2 := by omega
            subst this; exact hcmp
        · exact hright
        · right
          refine ⟨by omega, ?_⟩
          have hm1 : (left + right1 - 1) / 2 + 1 - 1 = (left + right1 - 1) / 2 := by
            omega
          rw [hm1, List.get?_eq_get hmidlt]
      · rw [if_neg hcmp]
        apply ih left ((left + right1 - 1) / 2) _ (by omega) (by omega) (by omega)
          hleft _ hcand
        intro i hilen hi
        rcases Nat.lt_or_ge ((left + right1 - 1) / 2) i with hlt | hge
        · exact lt_trans (Nat.lt_of_not_le hcmp) (hs _ i hmidlt hilen hlt)
        · have : i = (left + right1 - 1) / 2 := by omega
          subst this; exact Nat.lt_of_not_le hcmp
    · rw [if_neg h]
      exact ⟨left, by omega, hleft, fun i hl hi => hright i hl (by omega), hcand⟩

/-- C2: for every date-ascending price series `S` and date `d`,
`getPriceAtOrBefore S d` returns the price of the maximal element of `S`
whose date is `≤ d`, and returns `none` exactly when `S` is empty or every
point of `S` has a date strictly after `d`. -/
theorem getPriceAtOrBefore_correct (series : List PricePoint) (dt : Date)
    (hs : series.Pairwise (fun a b => a.date.code < b.date.code)) :
    match getPriceAtOrBefore series dt with
    | some pr => ∃ i, ∃ h : i < series.length,
        (series.get ⟨i, h⟩).price = pr ∧ (series.get ⟨i, h⟩).date.code ≤ dt.code ∧
        ∀ j (hj : j < series.length),
          (series.get ⟨j, hj⟩).date.code ≤ dt.code → j ≤ i
    | none => ∀ j (hj : j < series.length), dt.code < (series.get ⟨j, hj⟩).date.code
    := by
  have hs' : ∀ i j (hi : i < series.length) (hj : j < series.length), i < j →
      (series.get ⟨i, hi⟩).date.code < (series.get ⟨j, hj⟩).date.code := by
    intro i j hi hj hij
    exact List.pairwise_iff_get.mp hs ⟨i, hi⟩ ⟨j, hj⟩ hij
  obtain ⟨L, hL, hbelow, habove, hres⟩ :=
    bsGo_spec series dt hs' series.length 0 series.length none (by omega)
      (by omega) (le_refl _) (fun i h hi => absurd hi (by omega))
      (fun i h hi => absurd h (by omega)) (Or.inl ⟨rfl, rfl⟩)
  -- `getPriceAtOrBefore` runs the loop with fuel `series.length`
  rcases hres with ⟨hL0, hout⟩ | ⟨hLpos, hout⟩
  · unfold getPriceAtOrBefore
    rw [hout]
    simp only [Option.map_none']
    exact fun j hj => habove j hj (by omega)
  · unfold getPriceAtOrBefore
    have hL1 : L - 1 < series.length := by omega
    rw [hout, List.get?_eq_get hL1]
    simp only [Option.map_some']
    refine ⟨L - 1, hL1, rfl, hbelow _ hL1 (by omega), ?_⟩
    intro j hj hjle
    by_contra hgt
    exact absurd (habove j hj (by omega)) (by omega)

/-- Sample price series used by witnesses. -/
def sampleSeries : List PricePoint :=
  [⟨⟨2020, 1, 2⟩, 10⟩, ⟨⟨2020, 1, 5⟩, 12⟩, ⟨⟨2020, 1, 9⟩, 9⟩]

/-! ### Ledger: state, quantisation, buy and sell -/

/-- Source constant `SHARE_STEP = 0.0001`. -/
def SHARE_STEP : ℚ := 1 / 10000

/-- Source constant `CASH_STEP = 0.01`. -/
def CASH_STEP : ℚ := 1 / 100

/-- JS `+x.toFixed(2)`: round to two decimal places (`round t = ⌊t + 1/2⌋`). -/
def round2 (x : ℚ) : ℚ := (round (x * 100) : ℚ) / 100

/-- JS `+x.toFixed(4)`: round to four decimal places. -/
def round4 (x : ℚ) : ℚ := (round (x * 10000) : ℚ) / 10000

/-- Source `Math.round(x / CASH_STEP) * CASH_STEP`. -/
def roundToCash (x : ℚ) : ℚ := (round (x / CASH_STEP) : ℚ) * CASH_STEP

/-- Session phase (`TimeOfDay = 'open' | 'close'`). -/
inductive TimeOfDay
  | tOpen
  | tClose
deriving DecidableEq, Repr

/-- Transaction kind (`TxType = 'BUY' | 'SELL'`). -/
inductive TxType
  | BUY
  | SELL
deriving DecidableEq, Repr

/-- A holding record (`{symbol, shares, avgCost}`). -/
structure Holding where
  symbol : String
  shares : ℚ
  avgCost : ℚ
deriving DecidableEq, Repr

/-- A transaction record as appended by `addTx`. -/
structure Tx where
  date : Date
  time : TimeOfDay
  type : TxType
  symbol : String
  shares : ℚ
  price : ℚ
  total : ℚ
  profit_loss : Option ℚ
deriving DecidableEq, Repr

/-- The mutable game state touched by `buy`/`sell`: the system record
(`currentDate`, `timeOfDay`, `cash`), the holdings store, and the
append-only transaction store. -/
structure GameState where
  currentDate : Date
  timeOfDay : TimeOfDay
  cash : ℚ
  holdings : List Holding
  txs : List Tx
deriving DecidableEq, Repr

/-- The loaded price series per symbol (the `priceCache` contents). -/
def Prices : Type := String → List PricePoint

/-- `db.get('holdings', symbol)`. -/
def findHolding (hs : List Holding) (sym : String) : Option Holding :=
  hs.find? (fun h => h.symbol == sym)

/-- `db.put('holdings', h)` with key path `symbol`: upsert. -/
def putHolding (hs : List Holding) (h : Holding) : List Holding :=
  if (findHolding hs h.symbol).isSome then
    hs.map (fun x => if x.symbol == h.symbol then h else x)
  else hs ++ [h]

/-- `db.delete('holdings', symbol)`. -/
def delHolding (hs : List Holding) (sym : String) : List Holding :=
  hs.filter (fun h => h.symbol != sym)

/-- The `CRYPTO` table: invention date per crypto symbol. -/
def cryptoInvention : String → Option Date
  | "BTC-USD" => some ⟨2009, 1, 3⟩
  | "ETH-USD" => some ⟨2015, 7, 30⟩
  | _ => none

/-- Source `isCrypto`: `symbol in CRYPTO`. -/
def isCrypto (sym : String) : Bool := (cryptoInvention sym).isSome

/-- Source `cryptoAvailable`: non-crypto symbols are always "available" here
(the weekend rule is separate); crypto needs `date >= invention`. -/
def cryptoAvailable (sym : String) (dt : Date) : Bool :=
  match cryptoInvention sym with
  | none => true
  | some inv => inv.code ≤ dt.code

/-- Quantity resolution shared by `buy` and `sell`:
`shares ?? (cash ? Math.floor((cash / price) / SHARE_STEP) * SHARE_STEP : 0)`
(JS `cash ? _ : 0` treats a zero budget as falsy). -/
def resolveQty (shares? cash? : Option ℚ) (price : ℚ) : ℚ :=
  match shares? with
  | some q => q
  | none =>
    match cash? with
    | some c => if c = 0 then 0 else (⌊(c / price) / SHARE_STEP⌋ : ℚ) * SHARE_STEP
    | none => 0

/-- Source `buy(symbol, shares?, cash?)`.  Returns the state unchanged on any
of the early-return failure paths. -/
def buy (prices : Prices) (st : GameState) (sym : String)
    (shares? cash? : Option ℚ) : GameState :=
  let dt := st.currentDate
  if !(isCrypto sym) && isWeekend dt then st
  else if isCrypto sym && !(cryptoAvailable sym dt) then st
  else
    match getPriceAtOrBefore (prices sym) dt with
    | none => st
    | some price =>
      let qty := resolveQty shares? cash? price
      if qty ≤ 0 then st
      else
        let cost := roundToCash (qty * price)
        if st.cash < cost then st
        else
          let existing := (findHolding st.holdings sym).getD ⟨sym, 0, 0⟩
          let newShares := existing.shares + qty
          let newAvg :=
            if 0 < existing.shares then
              (existing.avgCost * existing.shares + cost) / newShares
            else price
          { st with
            holdings := putHolding st.holdings ⟨sym, newShares, newAvg⟩
            cash := round2 (st.cash - cost)
            txs := st.txs ++ [⟨dt, st.timeOfDay, TxType.BUY, sym, qty, price, cost, none⟩] }

/-- Source `sell(symbol, shares?, cash?)`.  Returns the state unchanged on any
of the early-return failure paths. -/
def sell (prices : Prices) (st : GameState) (sym : String)
    (shares? cash? : Option ℚ) : GameState :=
  let dt := st.currentDate
  if !(isCrypto sym) && isWeekend dt then st
  else
    match getPriceAtOrBefore (prices sym) dt with
    | none => st
    | some price =>
      match findHolding st.holdings sym with
      | none => st
      | some existing =>
        if existing.shares ≤ 0 then st
        else
          let qty := min (resolveQty shares? cash? price) existing.shares
          if qty ≤ 0 then st
          else
            let proceeds := roundToCash (qty * price)
            let remaining := round4 (existing.shares - qty)
            let profitLoss := round2 (proceeds - existing.avgCost * qty)
            { st with
              holdings :=
                if remaining ≤ 0 then delHolding st.holdings sym
                else putHolding st.holdings ⟨sym, remaining, existing.avgCost⟩
              cash := round2 (st.cash + proceeds)
              txs := st.txs ++
                [⟨dt, st.timeOfDay, TxType.SELL, sym, qty, price, proceeds,
                  some profitLoss⟩] }

/-- Deleting a symbol's holding makes it unfindable. -/
lemma findHolding_delHolding (hs : List Holding) (sym : String) :
    findHolding (delHolding hs sym) sym = none := by
  simp only [delHolding, findHolding]
  rw [List.find?_eq_none]
  intro x hx
  simpa using List.of_mem_filter hx

/-- Upserting a holding makes it the one found under its symbol. -/
lemma findHolding_putHolding (hs : List Holding) (h : Holding) :
    findHolding (putHolding hs h) h.symbol = some h := by
  unfold putHolding
  by_cases hex : (findHolding hs h.symbol).isSome
  · rw [if_pos hex]
    induction hs with
    | nil => exact absurd hex (by simp [findHolding])
    | cons x t ih =>
      by_cases hx : x.symbol = h.symbol
      · have hrepl : (if (x.symbol == h.symbol) = true then h else x) = h := by
          simp [hx]
        simp only [List.map_cons, hrepl]
        unfold findHolding
        exact List.find?_cons_of_pos _ (by simp)
      · have hkeep : (if (x.symbol == h.symbol) = true then h else x) = x := by
          simp [hx]
        have hex' : (findHolding t h.symbol).isSome := by
          unfold findHolding at hex ⊢
          rwa [List.find?_cons_of_neg _ (by simp [hx])] at hex
        simp only [List.map_cons, hkeep]
        unfold findHolding at ih ⊢
        rw [List.find?_cons_of_neg _ (by simp [hx])]
        exact ih hex'
  · rw [if_neg hex]
    induction hs with
    | nil =>
      unfold findHolding
      simp only [List.nil_append]
      exact List.find?_cons_of_pos _ (by simp)
    | cons x t ih =>
      have hx : ¬ x.symbol = h.symbol := by
        intro hc
        exact hex (by
          unfold findHolding
          rw [List.find?_cons_of_pos _ (by simp [hc])]
          rfl)
      have hex' : ¬ (findHolding t h.symbol).isSome := by
        intro hsome
        exact hex (by
          unfold findHolding at hsome ⊢
          rwa [List.find?_cons_of_neg _ (by simp [hx])])
      have : (x :: t) ++ [h] = x :: (t ++ [h]) := rfl
      rw [this]
      unfold findHolding at ih ⊢
      rw [List.find?_cons_of_neg _ (by simp [hx])]
      exact ih hex'

/-- C3: every failure path of `buy` — missing price, instrument unavailable
(non-crypto on a weekend, crypto before invention), non-positive resolved
quantity, or cost above available cash — leaves the whole state (cash,
holdings, transaction log) unchanged. -/
theorem buy_failure_no_state_change (prices : Prices) (st : GameState)
    (sym : String) (shares? cash? : Option ℚ) :
    (getPriceAtOrBefore (prices sym) st.currentDate = none →
      buy prices st sym shares? cash? = st) ∧
    ((!(isCrypto sym) && isWeekend st.currentDate) = true →
      buy prices st sym shares? cash? = st) ∧
    ((isCrypto sym && !(cryptoAvailable sym st.currentDate)) = true →
      buy prices st sym shares? cash? = st) ∧
    (∀ price, getPriceAtOrBefore (prices sym) st.currentDate = some price →
      resolveQty shares? cash? price ≤ 0 →
      buy prices st sym shares? cash? = st) ∧
    (∀ price, getPriceAtOrBefore (prices sym) st.currentDate = some price →
      st.cash < roundToCash (resolveQty shares? cash? price * price) →
      buy prices st sym shares? cash? = st) := by
  refine ⟨fun h => ?_, fun h => ?_, fun h => ?_,
    fun price h hq => ?_, fun price h hc => ?_⟩
  · simp [buy, h]
  · simp [buy, h]
  · simp [buy, h]
  · simp [buy, h, hq]
  · simp [buy, h, hc]

/-- An exact multiple of the cash quantum (0.01). -/
def IsCashMultiple (x : ℚ) : Prop := ∃ k : ℤ, x = (k : ℚ) / 100

/-- An exact multiple of the share quantum (0.0001). -/
def IsShareMultiple (x : ℚ) : Prop := ∃ k : ℤ, x = (k : ℚ) * SHARE_STEP

lemma roundToCash_multiple (x : ℚ) : IsCashMultiple (roundToCash x) :=
  ⟨round (x / CASH_STEP), by unfold roundToCash CASH_STEP; ring⟩

lemma round2_multiple (x : ℚ) : IsCashMultiple (round2 x) :=
  ⟨round (x * 100), rfl⟩

lemma round4_share_multiple (x : ℚ) : IsShareMultiple (round4 x) :=
  ⟨round (x * 10000), by unfold round4 SHARE_STEP; ring⟩

lemma IsCashMultiple.sub {x y : ℚ} (hx : IsCashMultiple x) (hy : IsCashMultiple y) :
    IsCashMultiple (x - y) := by
  obtain ⟨k, rfl⟩ := hx
  obtain ⟨j, rfl⟩ := hy
  exact ⟨k - j, by push_cast; ring⟩

lemma IsCashMultiple.add {x y : ℚ} (hx : IsCashMultiple x) (hy : IsCashMultiple y) :
    IsCashMultiple (x + y) := by
  obtain ⟨k, rfl⟩ := hx
  obtain ⟨j, rfl⟩ := hy
  exact ⟨k + j, by push_cast; ring⟩

/-- `toFixed(2)` is the identity on exact cash multiples. -/
lemma round2_eq_self {x : ℚ} (h : IsCashMultiple x) : round2 x = x := by
  obtain ⟨k, rfl⟩ := h
  unfold round2
  rw [div_mul_cancel₀ _ (by norm_num : (100 : ℚ) ≠ 0), round_intCast]

lemma round_nonneg {x : ℚ} (h : 0 ≤ x) : 0 ≤ round x := by
  rw [round_eq]
  exact Int.floor_nonneg.mpr (by linarith)

lemma roundToCash_nonneg {x : ℚ} (h : 0 ≤ x) : 0 ≤ roundToCash x := by
  unfold roundToCash CASH_STEP
  have h1 : (0 : ℚ) ≤ x / (1 / 100) := by positivity
  have h2 : (0 : ℤ) ≤ round (x / (1 / 100)) := round_nonneg h1
  have : (0 : ℚ) ≤ (round (x / (1 / 100)) : ℚ) := by exact_mod_cast h2
  positivity

lemma round2_nonneg {x : ℚ} (h : 0 ≤ x) : 0 ≤ round2 x := by
  unfold round2
  have h1 : (0 : ℚ) ≤ x * 100 := by positivity
  have h2 : (0 : ℤ) ≤ round (x * 100) := round_nonneg h1
  have : (0 : ℚ) ≤ (round (x * 100) : ℚ) := by exact_mod_cast h2
  positivity

/-- A one-point series priced exactly at the query date resolves to it. -/
lemma getPriceAtOrBefore_singleton (dt : Date) (p : ℚ) :
    getPriceAtOrBefore [⟨dt, p⟩] dt = some p := by
  simp [getPriceAtOrBefore, bsGo]

/-- The success path of `buy`: with all guards passing, the state is updated
with the quantised cost, the weighted-average (or first-price) cost basis,
and an appended BUY transaction. -/
lemma buy_success (prices : Prices) (st : GameState) (sym : String)
    (shares? cash? : Option ℚ) (price : ℚ)
    (hw : (!(isCrypto sym) && isWeekend st.currentDate) = false)
    (ha : (isCrypto sym && !(cryptoAvailable sym st.currentDate)) = false)
    (hlook : getPriceAtOrBefore (prices sym) st.currentDate = some price)
    (hq : 0 < resolveQty shares? cash? price)
    (hc : ¬ st.cash < roundToCash (resolveQty shares? cash? price * price)) :
    buy prices st sym shares? cash? =
      { st with
        holdings := putHolding st.holdings
          ⟨sym,
            ((findHolding st.holdings sym).getD ⟨sym, 0, 0⟩).shares +
              resolveQty shares? cash? price,
            if 0 < ((findHolding st.holdings sym).getD ⟨sym, 0, 0⟩).shares then
              (((findHolding st.holdings sym).getD ⟨sym, 0, 0⟩).avgCost *
                  ((findHolding st.holdings sym).getD ⟨sym, 0, 0⟩).shares +
                roundToCash (resolveQty shares? cash? price * price)) /
                (((findHolding st.holdings sym).getD ⟨sym, 0, 0⟩).shares +
                  resolveQty shares? cash? price)
            else price⟩
        cash := round2 (st.cash - roundToCash (resolveQty shares? cash? price * price))
        txs := st.txs ++ [⟨st.currentDate, st.timeOfDay, TxType.BUY, sym,
          resolveQty shares? cash? price, price,
          roundToCash (resolveQty shares? cash? price * price), none⟩] } := by
  unfold buy
  simp only [hw, ha, Bool.false_eq_true, if_false, hlook]
  rw [if_neg (not_le.mpr hq), if_neg hc]

/-- A sequence of `buy`s of one instrument at prescribed quantities and
prices: step `i` runs the real `buy` against a price series that quotes
price `pᵢ` at the (unchanged) current date. -/
def buySeq (sym : String) (st : GameState) (L : List (ℚ × ℚ)) : GameState :=
  L.foldl (fun s qp => buy (fun _ => [⟨s.currentDate, qp.2⟩]) s sym (some qp.1) none) st

/-- Invariant of `buySeq` from an existing holding `⟨sym, S, A⟩`: shares add
up and the cost basis is the exact weighted average
`(A*S + Σ roundToCash (qᵢ*pᵢ)) / (S + Σ qᵢ)`. -/
lemma buySeq_inv (sym : String) (hcr : isCrypto sym = true) :
    ∀ (L : List (ℚ × ℚ)) (st : GameState) (S A : ℚ),
    cryptoAvailable sym st.currentDate = true →
    findHolding st.holdings sym = some ⟨sym, S, A⟩ →
    0 < S →
    (∀ qp ∈ L, 0 < qp.1 ∧ 0 ≤ qp.2) →
    IsCashMultiple st.cash →
    (L.map (fun qp => roundToCash (qp.1 * qp.2))).sum ≤ st.cash →
    (buySeq sym st L).currentDate = st.currentDate ∧
    findHolding (buySeq sym st L).holdings sym
      = some ⟨sym, S + (L.map Prod.fst).sum,
          (A * S + (L.map (fun qp => roundToCash (qp.1 * qp.2))).sum)
            / (S + (L.map Prod.fst).sum)⟩ := by
  intro L
  induction L with
  | nil =>
    intro st S A hav hfind hS hpos hmul hbudget
    refine ⟨rfl, ?_⟩
    simpa [buySeq, add_zero, mul_div_assoc,
      mul_div_cancel_right₀ _ (ne_of_gt hS)] using hfind
  | cons qp rest ih =>
    intro st S A hav hfind hS hpos hmul hbudget
    obtain ⟨q, p⟩ := qp
    have hq : 0 < q := (hpos (q, p) (List.mem_cons_self _ _)).1
    have hp : 0 ≤ p := (hpos (q, p) (List.mem_cons_self _ _)).2
    have hrest_nonneg : 0 ≤ (rest.map (fun qp => roundToCash (qp.1 * qp.2))).sum := by
      apply List.sum_nonneg
      intro x hx
      obtain ⟨qp', hqp', rfl⟩ := List.mem_map.mp hx
      have := hpos qp' (List.mem_cons_of_mem _ hqp')
      exact roundToCash_nonneg (mul_nonneg (le_of_lt this.1) this.2)
    have hsum : (((q, p) :: rest).map (fun qp => roundToCash (qp.1 * qp.2))).sum
        = roundToCash (q * p) + (rest.map (fun qp => roundToCash (qp.1 * qp.2))).sum := by
      simp
    have hcost_le : roundToCash (q * p) ≤ st.cash := by
      rw [hsum] at hbudget; linarith
    have hw : (!(isCrypto sym) && isWeekend st.currentDate) = false := by
      simp [hcr]
    have ha : (isCrypto sym && !(cryptoAvailable sym st.currentDate)) = false := by
      simp [hcr, hav]
    have hlook :
        getPriceAtOrBefore ((fun _ : String => [⟨st.currentDate, p⟩]) sym)
          st.currentDate = some p := getPriceAtOrBefore_singleton _ _
    have hq' : 0 < resolveQty (some q) none p := hq
    have hc : ¬ st.cash < roundToCash (resolveQty (some q) none p * p) :=
      not_lt.mpr hcost_le
    have hstep := buy_success (fun _ => [⟨st.currentDate, p⟩]) st sym
      (some q) none p hw ha hlook hq' hc
    have hunfold : buySeq sym st ((q, p) :: rest)
        = buySeq sym (buy (fun _ => [⟨st.currentDate, p⟩]) st sym (some q) none)
            rest := rfl
    rw [hunfold, hstep]
    -- the state after the first buy
    set st' : GameState :=
      { st with
        holdings := putHolding st.holdings
          ⟨sym,
            ((findHolding st.holdings sym).getD ⟨sym, 0, 0⟩).shares +
              resolveQty (some q) none p,
            if 0 < ((findHolding st.holdings sym).getD ⟨sym, 0, 0⟩).shares then
              (((findHolding st.holdings sym).getD ⟨sym, 0, 0⟩).avgCost *
                  ((findHolding st.holdings sym).getD ⟨sym, 0, 0⟩).shares +
                roundToCash (resolveQty (some q) none p * p)) /
                (((findHolding st.holdings sym).getD ⟨sym, 0, 0⟩).shares +
                  resolveQty (some q) none p)
            else p⟩
        cash := round2 (st.cash - roundToCash (resolveQty (some q) none p * p))
        txs := st.txs ++ [⟨st.currentDate, st.timeOfDay, TxType.BUY, sym,
          resolveQty (some q) none p, p,
          roundToCash (resolveQty (some q) none p * p), none⟩] } with hst'
    have hfind' : findHolding st'.holdings sym
        = some ⟨sym, S + q, (A * S + roundToCash (q * p)) / (S + q)⟩ := by
      rw [hst']
      simp only [hfind, Option.getD_some]
      have := findHolding_putHolding st.holdings
        ⟨sym, S + q, if 0 < S then (A * S + roundToCash (q * p)) / (S + q) else p⟩
      simpa [if_pos hS, resolveQty] using this
    have hcash' : st'.cash = st.cash - roundToCash (q * p) := by
      rw [hst']
      exact round2_eq_self (hmul.sub (roundToCash_multiple _))
    have hresult := ih st' (S + q) ((A * S + roundToCash (q * p)) / (S + q))
      (by rw [hst']; exact hav) hfind' (by linarith)
      (fun x hx => hpos x (List.mem_cons_of_mem _ hx))
      (by rw [hcash']; exact hmul.sub (roundToCash_multiple _))
      (by rw [hcash']; rw [hsum] at hbudget; linarith)
    have hdate' : st'.currentDate = st.currentDate := by rw [hst']
    refine ⟨by rw [hresult.1, hdate'], ?_⟩
    have hSq : S + q ≠ 0 := by positivity
    rw [hresult.2, div_mul_cancel₀ _ hSq]
    simp only [List.map_cons, List.sum_cons, ← add_assoc]

/-- C5: cost-basis bookkeeping.  A first buy sets `avgCost = price`; a later
buy sets `avgCost' = (avgCost*oldQty + cost) / (oldQty + qty)`; a sell never
changes the `avgCost` of the remaining shares; and after any sequence of
buys from no holding, `avgCost` is exactly the weighted average
`(q₁p₁ + Σᵢ₌₂ roundToCash (qᵢpᵢ)) / Σ qᵢ` (the rounding-tolerance version of
`Σ qᵢpᵢ / Σ qᵢ`). -/
theorem cost_basis_invariant :
    (∀ (prices : Prices) (st : GameState) sym shares? cash? price,
      (!(isCrypto sym) && isWeekend st.currentDate) = false →
      (isCrypto sym && !(cryptoAvailable sym st.currentDate)) = false →
      getPriceAtOrBefore (prices sym) st.currentDate = some price →
      0 < resolveQty shares? cash? price →
      ¬ st.cash < roundToCash (resolveQty shares? cash? price * price) →
      findHolding st.holdings sym = none →
      findHolding (buy prices st sym shares? cash?).holdings sym
        = some ⟨sym, resolveQty shares? cash? price, price⟩) ∧
    (∀ (prices : Prices) (st : GameState) sym shares? cash? price ex,
      (!(isCrypto sym) && isWeekend st.currentDate) = false →
      (isCrypto sym && !(cryptoAvailable sym st.currentDate)) = false →
      getPriceAtOrBefore (prices sym) st.currentDate = some price →
      0 < resolveQty shares? cash? price →
      ¬ st.cash < roundToCash (resolveQty shares? cash? price * price) →
      findHolding st.holdings sym = some ex →
      0 < ex.shares →
      findHolding (buy prices st sym shares? cash?).holdings sym
        = some ⟨sym, ex.shares + resolveQty shares? cash? price,
            (ex.avgCost * ex.shares +
              roundToCash (resolveQty shares? cash? price * price)) /
              (ex.shares + resolveQty shares? cash? price)⟩) ∧
    (∀ (prices : Prices) (st : GameState) sym shares? cash? price ex,
      (!(isCrypto sym) && isWeekend st.currentDate) = false →
      getPriceAtOrBefore (prices sym) st.currentDate = some price →
      findHolding st.holdings sym = some ex →
      0 < min (resolveQty shares? cash? price) ex.shares →
      ¬ round4 (ex.shares - min (resolveQty shares? cash? price) ex.shares) ≤ 0 →
      findHolding (sell prices st sym shares? cash?).holdings sym
        = some ⟨sym,
            round4 (ex.shares - min (resolveQty shares? cash? price) ex.shares),
            ex.avgCost⟩) ∧
    (∀ sym (st : GameState) (q1 p1 : ℚ) (rest : List (ℚ × ℚ)),
      isCrypto sym = true →
      cryptoAvailable sym st.currentDate = true →
      findHolding st.holdings sym = none →
      (∀ qp ∈ (q1, p1) :: rest, 0 < qp.1 ∧ 0 ≤ qp.2) →
      IsCashMultiple st.cash →
      (((q1, p1) :: rest).map (fun qp => roundToCash (qp.1 * qp.2))).sum ≤ st.cash →
      findHolding (buySeq sym st ((q1, p1) :: rest)).holdings sym
        = some ⟨sym, q1 + (rest.map Prod.fst).sum,
            (q1 * p1 + (rest.map (fun qp => roundToCash (qp.1 * qp.2))).sum)
              / (q1 + (rest.map Prod.fst).sum)⟩) := by
  refine ⟨?_, ?_, ?_, ?_⟩
  · intro prices st sym shares? cash? price hw ha hlook hq hc hfind
    rw [buy_success prices st sym shares? cash? price hw ha hlook hq hc]
    simp only [hfind, Option.getD_none]
    simpa [zero_add] using findHolding_putHolding st.holdings
      ⟨sym, 0 + resolveQty shares? cash? price,
        if 0 < (Holding.mk sym 0 0).shares then
          ((Holding.mk sym 0 0).avgCost * (Holding.mk sym 0 0).shares +
            roundToCash (resolveQty shares? cash? price * price)) /
            ((Holding.mk sym 0 0).shares + resolveQty shares? cash? price)
        else price⟩
  · intro prices st sym shares? cash? price ex hw ha hlook hq hc hfind hexpos
    rw [buy_success prices st sym shares? cash? price hw ha hlook hq hc]
    simp only [hfind, Option.getD_some]
    simpa [if_pos hexpos] using findHolding_putHolding st.holdings
      ⟨sym, ex.shares + resolveQty shares? cash? price,
        if 0 < ex.shares then
          (ex.avgCost * ex.shares +
            roundToCash (resolveQty shares? cash? price * price)) /
            (ex.shares + resolveQty shares? cash? price)
        else price⟩
  · intro prices st sym shares? cash? price ex hw hlook hfind hq hkeep
    have hexpos : ¬ ex.shares ≤ 0 := fun hle =>
      absurd hq (not_lt.mpr ((min_le_right _ _).trans hle))
    have hqn : ¬ min (resolveQty shares? cash? price) ex.shares ≤ 0 := not_le.mpr hq
    unfold sell
    simp only [hw, Bool.false_eq_true, if_false, hlook, hfind, hexpos, hqn, if_neg,
      not_false_iff]
    rw [if_neg hkeep]
    exact findHolding_putHolding st.holdings ⟨sym, _, ex.avgCost⟩
  · intro sym st q1 p1 rest hcr hav hfind hpos hmul hbudget
    have hq1 : 0 < q1 := (hpos (q1, p1) (List.mem_cons_self _ _)).1
    have hp1 : 0 ≤ p1 := (hpos (q1, p1) (List.mem_cons_self _ _)).2
    have hrest_nonneg : 0 ≤ (rest.map (fun qp => roundToCash (qp.1 * qp.2))).sum := by
      apply List.sum_nonneg
      intro x hx
      obtain ⟨qp', hqp', rfl⟩ := List.mem_map.mp hx
      have := hpos qp' (List.mem_cons_of_mem _ hqp')
      exact roundToCash_nonneg (mul_nonneg (le_of_lt this.1) this.2)
    have hsum : (((q1, p1) :: rest).map (fun qp => roundToCash (qp.1 * qp.2))).sum
        = roundToCash (q1 * p1)
          + (rest.map (fun qp => roundToCash (qp.1 * qp.2))).sum := by
      simp
    have hcost_le : roundToCash (q1 * p1) ≤ st.cash := by
      rw [hsum] at hbudget; linarith
    have hw : (!(isCrypto sym) && isWeekend st.currentDate) = false := by
      simp [hcr]
    have ha : (isCrypto sym && !(cryptoAvailable sym st.currentDate)) = false := by
      simp [hcr, hav]
    have hlook :
        getPriceAtOrBefore ((fun _ : String => [⟨st.currentDate, p1⟩]) sym)
          st.currentDate = some p1 := getPriceAtOrBefore_singleton _ _
    have hstep := buy_success (fun _ => [⟨st.currentDate, p1⟩]) st sym
      (some q1) none p1 hw ha hlook hq1 (not_lt.mpr hcost_le)
    have hunfold : buySeq sym st ((q1, p1) :: rest)
        = buySeq sym (buy (fun _ => [⟨st.currentDate, p1⟩]) st sym (some q1) none)
            rest := rfl
    rw [hunfold, hstep]
    set st1 : GameState :=
      { st with
        holdings := putHolding st.holdings
          ⟨sym,
            ((findHolding st.holdings sym).getD ⟨sym, 0, 0⟩).shares +
              resolveQty (some q1) none p1,
            if 0 < ((findHolding st.holdings sym).getD ⟨sym, 0, 0⟩).shares then
              (((findHolding st.holdings sym).getD ⟨sym, 0, 0⟩).avgCost *
                  ((findHolding st.holdings sym).getD ⟨sym, 0, 0⟩).shares +
                roundToCash (resolveQty (some q1) none p1 * p1)) /
                (((findHolding st.holdings sym).getD ⟨sym, 0, 0⟩).shares +
                  resolveQty (some q1) none p1)
            else p1⟩
        cash := round2 (st.cash - roundToCash (resolveQty (some q1) none p1 * p1))
        txs := st.txs ++ [⟨st.currentDate, st.timeOfDay, TxType.BUY, sym,
          resolveQty (some q1) none p1, p1,
          roundToCash (resolveQty (some q1) none p1 * p1), none⟩] } with hst1
    have hfind1 : findHolding st1.holdings sym = some ⟨sym, q1, p1⟩ := by
      rw [hst1]
      simp only [hfind, Option.getD_none]
      simpa [zero_add] using findHolding_putHolding st.holdings
        ⟨sym, 0 + resolveQty (some q1) none p1,
          if 0 < (Holding.mk sym 0 0).shares then
            ((Holding.mk sym 0 0).avgCost * (Holding.mk sym 0 0).shares +
              roundToCash (resolveQty (some q1) none p1 * p1)) /
              ((Holding.mk sym 0 0).shares + resolveQty (some q1) none p1)
          else p1⟩
    have hcash1 : st1.cash = st.cash - roundToCash (q1 * p1) := by
      rw [hst1]
      exact round2_eq_self (hmul.sub (roundToCash_multiple _))
    have hresult := buySeq_inv sym hcr rest st1 q1 p1
      (by rw [hst1]; exact hav) hfind1 hq1
      (fun x hx => hpos x (List.mem_cons_of_mem _ hx))
      (by rw [hcash1]; exact hmul.sub (roundToCash_multiple _))
      (by rw [hcash1]; rw [hsum] at hbudget; linarith)
    rw [hresult.2, mul_comm p1 q1]

/-- Witness for C5, using the sequence clause: two successive buys of
BTC-USD (10 at 100, then 5 at 130) from a fresh ledger end at the exact
weighted-average cost basis. -/
theorem cost_basis_invariant_witness :
    findHolding (buySeq "BTC-USD"
        ⟨⟨2020, 1, 15⟩, TimeOfDay.tOpen, 10000, [], []⟩
        [(10, 100), (5, 130)]).holdings "BTC-USD"
      = some ⟨"BTC-USD", 10 + ([((5 : ℚ), (130 : ℚ))].map Prod.fst).sum,
          (10 * 100 + ([((5 : ℚ), (130 : ℚ))].map
              (fun qp => roundToCash (qp.1 * qp.2))).sum)
            / (10 + ([((5 : ℚ), (130 : ℚ))].map Prod.fst).sum)⟩ :=
  cost_basis_invariant.2.2.2 "BTC-USD"
    ⟨⟨2020, 1, 15⟩, TimeOfDay.tOpen, 10000, [], []⟩ 10 100 [(5, 130)]
    (by decide) (by decide) (by decide) (by decide)
    ⟨1000000, by norm_num⟩
    (by norm_num [roundToCash, CASH_STEP, round_eq])

/-- C6 (amended): cash after any committed buy or sell is an exact multiple
of the cash quantum and stays non-negative (selling needs a non-negative
price); a quantity resolved from a cash budget is an exact multiple of the
share quantum; and the holding remaining after a sell is share-quantised.
(A buy with an explicit share quantity is *not* quantised — see the
counterexample.) -/
theorem quantization_closure_amended :
    (∀ (prices : Prices) (st : GameState) sym shares? cash? price,
      (!(isCrypto sym) && isWeekend st.currentDate) = false →
      (isCrypto sym && !(cryptoAvailable sym st.currentDate)) = false →
      getPriceAtOrBefore (prices sym) st.currentDate = some price →
      0 < resolveQty shares? cash? price →
      ¬ st.cash < roundToCash (resolveQty shares? cash? price * price) →
      IsCashMultiple (buy prices st sym shares? cash?).cash ∧
      0 ≤ (buy prices st sym shares? cash?).cash) ∧
    (∀ (c price : ℚ), IsShareMultiple (resolveQty none (some c) price)) ∧
    (∀ (prices : Prices) (st : GameState) sym shares? cash? price ex,
      (!(isCrypto sym) && isWeekend st.currentDate) = false →
      getPriceAtOrBefore (prices sym) st.currentDate = some price →
      findHolding st.holdings sym = some ex →
      0 < min (resolveQty shares? cash? price) ex.shares →
      IsCashMultiple (sell prices st sym shares? cash?).cash ∧
      (0 ≤ st.cash → 0 ≤ price → 0 ≤ (sell prices st sym shares? cash?).cash) ∧
      (findHolding (sell prices st sym shares? cash?).holdings sym = none ∨
        ∃ r, findHolding (sell prices st sym shares? cash?).holdings sym
            = some ⟨sym, r, ex.avgCost⟩ ∧ IsShareMultiple r)) := by
  refine ⟨?_, ?_, ?_⟩
  · intro prices st sym shares? cash? price hw ha hlook hq hc
    rw [buy_success prices st sym shares? cash? price hw ha hlook hq hc]
    exact ⟨round2_multiple _, round2_nonneg (by linarith [not_lt.mp hc])⟩
  · intro c price
    have hres : resolveQty none (some c) price
        = if c = 0 then 0 else (⌊(c / price) / SHARE_STEP⌋ : ℚ) * SHARE_STEP := rfl
    rw [hres]
    by_cases hc : c = 0
    · rw [if_pos hc]
      exact ⟨0, by norm_num⟩
    · rw [if_neg hc]
      exact ⟨⌊(c / price) / SHARE_STEP⌋, rfl⟩
  · intro prices st sym shares? cash? price ex hw hlook hfind hq
    have hexpos : ¬ ex.shares ≤ 0 := fun hle =>
      absurd hq (not_lt.mpr ((min_le_right _ _).trans hle))
    have hqn : ¬ min (resolveQty shares? cash? price) ex.shares ≤ 0 := not_le.mpr hq
    unfold sell
    simp only [hw, Bool.false_eq_true, if_false, hlook, hfind, hexpos, hqn, if_neg,
      not_false_iff]
    refine ⟨round2_multiple _, fun hcash hprice => ?_, ?_⟩
    · exact round2_nonneg (add_nonneg hcash
        (roundToCash_nonneg (mul_nonneg (le_of_lt hq) hprice)))
    · split
      · exact Or.inl (findHolding_delHolding st.holdings sym)
      · exact Or.inr ⟨_, findHolding_putHolding st.holdings ⟨sym, _, ex.avgCost⟩,
          round4_share_multiple _⟩

/-- Witness for C6 (amended): a concrete committed buy keeps cash quantised
and non-negative, and a concrete cash budget resolves to a quantised
quantity. -/
theorem quantization_closure_amended_witness :
    (IsCashMultiple (buy (fun _ => [⟨⟨2020, 1, 15⟩, 100⟩])
        ⟨⟨2020, 1, 15⟩, TimeOfDay.tOpen, 10000, [], []⟩ "BTC-USD"
        (some 10) none).cash ∧
      0 ≤ (buy (fun _ => [⟨⟨2020, 1, 15⟩, 100⟩])
        ⟨⟨2020, 1, 15⟩, TimeOfDay.tOpen, 10000, [], []⟩ "BTC-USD"
        (some 10) none).cash) ∧
    IsShareMultiple (resolveQty none (some 5000) 3) :=
  ⟨quantization_closure_amended.1 (fun _ => [⟨⟨2020, 1, 15⟩, 100⟩])
      ⟨⟨2020, 1, 15⟩, TimeOfDay.tOpen, 10000, [], []⟩ "BTC-USD"
      (some 10) none 100 (by decide) (by decide) (by decide) (by decide)
      (by norm_num [resolveQty, roundToCash, CASH_STEP, round_eq]),
    quantization_closure_amended.2.1 5000 3⟩

/-- Counterexample for C6 as stated: a buy with the explicit share quantity
0.00005 (half the share quantum) commits, and the resulting holding's
quantity is not an exact multiple of `shareQuantum = 0.0001`. -/
theorem quantization_closure_counterexample :
    findHolding (buy (fun _ => [⟨⟨2020, 1, 15⟩, 100⟩])
        ⟨⟨2020, 1, 15⟩, TimeOfDay.tOpen, 10000, [], []⟩ "BTC-USD"
        (some (1 / 20000)) none).holdings "BTC-USD"
      = some ⟨"BTC-USD", 1 / 20000, 100⟩ ∧
    ¬ IsShareMultiple (1 / 20000) := by
  constructor
  · rw [buy_success (fun _ => [⟨⟨2020, 1, 15⟩, 100⟩])
      ⟨⟨2020, 1, 15⟩, TimeOfDay.tOpen, 10000, [], []⟩ "BTC-USD"
      (some (1 / 20000)) none 100 (by decide) (by decide) (by decide)
      (by norm_num [resolveQty])
      (by norm_num [resolveQty, roundToCash, CASH_STEP, round_eq])]
    have := findHolding_putHolding ([] : List Holding)
      ⟨"BTC-USD",
        ((findHolding ([] : List Holding) "BTC-USD").getD ⟨"BTC-USD", 0, 0⟩).shares +
          resolveQty (some (1 / 20000)) none 100,
        if 0 < ((findHolding ([] : List Holding) "BTC-USD").getD
            ⟨"BTC-USD", 0, 0⟩).shares then
          (((findHolding ([] : List Holding) "BTC-USD").getD
              ⟨"BTC-USD", 0, 0⟩).avgCost *
            ((findHolding ([] : List Holding) "BTC-USD").getD
              ⟨"BTC-USD", 0, 0⟩).shares +
            roundToCash (resolveQty (some (1 / 20000)) none 100 * 100)) /
            (((findHolding ([] : List Holding) "BTC-USD").getD
              ⟨"BTC-USD", 0, 0⟩).shares +
              resolveQty (some (1 / 20000)) none 100)
        else 100⟩
    simpa [resolveQty, findHolding] using this
  · rintro ⟨k, hk⟩
    rw [SHARE_STEP] at hk
    have h2 : (1 : ℚ) * 10000 = (k : ℚ) * (1 * 20000) := by
      field_simp at hk
      linarith
    have h3 : (10000 : ℤ) = k * 20000 := by exact_mod_cast h2
    omega

/-- C4: selling clamps the requested quantity to the held quantity; on
success the proceeds are `roundToCash (qty * price)`, cash grows by the
proceeds, the appended SELL transaction records
`realizedPnL = proceeds - avgCost * qty`, and the holding is deleted exactly
when the remaining rounded quantity is `≤ 0` (otherwise its `avgCost` is
unchanged); selling with no holding, or with resolved quantity `≤ 0`, leaves
the state unchanged. -/
theorem sell_spec (prices : Prices) (st : GameState) (sym : String)
    (shares? cash? : Option ℚ) :
    (findHolding st.holdings sym = none → sell prices st sym shares? cash? = st) ∧
    (∀ price ex, getPriceAtOrBefore (prices sym) st.currentDate = some price →
      findHolding st.holdings sym = some ex →
      min (resolveQty shares? cash? price) ex.shares ≤ 0 →
      sell prices st sym shares? cash? = st) ∧
    (∀ price ex,
      (!(isCrypto sym) && isWeekend st.currentDate) = false →
      getPriceAtOrBefore (prices sym) st.currentDate = some price →
      findHolding st.holdings sym = some ex →
      0 < min (resolveQty shares? cash? price) ex.shares →
      (sell prices st sym shares? cash?).cash
        = round2 (st.cash +
            roundToCash (min (resolveQty shares? cash? price) ex.shares * price)) ∧
      (sell prices st sym shares? cash?).txs
        = st.txs ++ [⟨st.currentDate, st.timeOfDay, TxType.SELL, sym,
            min (resolveQty shares? cash? price) ex.shares, price,
            roundToCash (min (resolveQty shares? cash? price) ex.shares * price),
            some (round2
              (roundToCash (min (resolveQty shares? cash? price) ex.shares * price)
                - ex.avgCost * min (resolveQty shares? cash? price) ex.shares))⟩] ∧
      (if round4 (ex.shares - min (resolveQty shares? cash? price) ex.shares) ≤ 0
        then findHolding (sell prices st sym shares? cash?).holdings sym = none
        else findHolding (sell prices st sym shares? cash?).holdings sym
          = some ⟨sym,
              round4 (ex.shares - min (resolveQty shares? cash? price) ex.shares),
              ex.avgCost⟩)) := by
  refine ⟨fun h => ?_, fun price ex hlook hfind hq => ?_,
    fun price ex hw hlook hfind hq => ?_⟩
  · unfold sell
    cases hlook : getPriceAtOrBefore (prices sym) st.currentDate with
    | none => simp [hlook]
    | some price => simp [hlook, h]
  · unfold sell
    simp [hlook, hfind, hq]
  · have hexpos : ¬ ex.shares ≤ 0 := fun hle =>
      absurd hq (not_lt.mpr ((min_le_right _ _).trans hle))
    have hqn : ¬ min (resolveQty shares? cash? price) ex.shares ≤ 0 := not_le.mpr hq
    unfold sell
    simp only [hw, Bool.false_eq_true, if_false, hlook, hfind, hexpos, hqn, if_neg,
      not_false_iff]
    refine ⟨trivial, trivial, ?_⟩
    split
    · exact findHolding_delHolding st.holdings sym
    · exact findHolding_putHolding st.holdings ⟨sym, _, ex.avgCost⟩

/-- Witness for C4: a concrete sell of 4 of 10 held shares commits with the
stated cash, log and holding updates, and a sell with no holding is a no-op. -/
theorem sell_spec_witness :
    ((sell (fun _ => [⟨⟨2020, 1, 17⟩, 120⟩])
        ⟨⟨2020, 1, 17⟩, TimeOfDay.tOpen, 1000, [⟨"AAPL", 10, 100⟩], []⟩
        "AAPL" (some 4) none).cash
      = round2 (1000 + roundToCash (min (resolveQty (some 4) none 120)
          (10 : ℚ) * 120)) ∧
     (sell (fun _ => [⟨⟨2020, 1, 17⟩, 120⟩])
        ⟨⟨2020, 1, 17⟩, TimeOfDay.tOpen, 1000, [⟨"AAPL", 10, 100⟩], []⟩
        "AAPL" (some 4) none).txs
      = [] ++ [⟨⟨2020, 1, 17⟩, TimeOfDay.tOpen, TxType.SELL, "AAPL",
          min (resolveQty (some 4) none 120) (10 : ℚ), 120,
          roundToCash (min (resolveQty (some 4) none 120) (10 : ℚ) * 120),
          some (round2 (roundToCash (min (resolveQty (some 4) none 120)
            (10 : ℚ) * 120) - 100 * min (resolveQty (some 4) none 120) (10 : ℚ)))⟩] ∧
     (if round4 ((10 : ℚ) - min (resolveQty (some 4) none 120) 10) ≤ 0
      then findHolding (sell (fun _ => [⟨⟨2020, 1, 17⟩, 120⟩])
          ⟨⟨2020, 1, 17⟩, TimeOfDay.tOpen, 1000, [⟨"AAPL", 10, 100⟩], []⟩
          "AAPL" (some 4) none).holdings "AAPL" = none
      else findHolding (sell (fun _ => [⟨⟨2020, 1, 17⟩, 120⟩])
          ⟨⟨2020, 1, 17⟩, TimeOfDay.tOpen, 1000, [⟨"AAPL", 10, 100⟩], []⟩
          "AAPL" (some 4) none).holdings "AAPL"
        = some ⟨"AAPL", round4 ((10 : ℚ) - min (resolveQty (some 4) none 120) 10),
            100⟩)) ∧
    (sell (fun _ => [⟨⟨2020, 1, 17⟩, 120⟩])
        ⟨⟨2020, 1, 17⟩, TimeOfDay.tOpen, 1000, [], []⟩ "AAPL" (some 4) none
      = ⟨⟨2020, 1, 17⟩, TimeOfDay.tOpen, 1000, [], []⟩) :=
  ⟨(sell_spec (fun _ => [⟨⟨2020, 1, 17⟩, 120⟩])
      ⟨⟨2020, 1, 17⟩, TimeOfDay.tOpen, 1000, [⟨"AAPL", 10, 100⟩], []⟩
      "AAPL" (some 4) none).2.2 120 ⟨"AAPL", 10, 100⟩ (by decide) (by decide)
      (by decide) (by decide),
   (sell_spec (fun _ => [⟨⟨2020, 1, 17⟩, 120⟩])
      ⟨⟨2020, 1, 17⟩, TimeOfDay.tOpen, 1000, [], []⟩ "AAPL" (some 4) none).1
      (by decide)⟩

/-- Witness for C3: a concrete buy with no available price, and another
blocked by the weekend rule, both leave the state untouched. -/
theorem buy_failure_no_state_change_witness :
    (buy (fun _ => []) ⟨⟨2020, 1, 15⟩, TimeOfDay.tOpen, 10000, [], []⟩
        "AAPL" (some 1) none
      = ⟨⟨2020, 1, 15⟩, TimeOfDay.tOpen, 10000, [], []⟩) ∧
    (buy (fun _ => [⟨⟨2020, 1, 17⟩, 5⟩]) ⟨⟨2020, 1, 18⟩, TimeOfDay.tOpen, 10000, [], []⟩
        "AAPL" (some 1) none
      = ⟨⟨2020, 1, 18⟩, TimeOfDay.tOpen, 10000, [], []⟩) :=
  ⟨(buy_failure_no_state_change (fun _ => []) _ "AAPL" (some 1) none).1 (by decide),
   (buy_failure_no_state_change (fun _ => [⟨⟨2020, 1, 17⟩, 5⟩]) _ "AAPL"
      (some 1) none).2.1 (by decide)⟩

/-- Witness for C2 at a concrete sorted series and query date. -/
theorem getPriceAtOrBefore_correct_witness :
    (sampleSeries.Pairwise (fun a b => a.date.code < b.date.code)) ∧
    (match getPriceAtOrBefore sampleSeries ⟨2020, 1, 7⟩ with
     | some pr => ∃ i, ∃ h : i < sampleSeries.length,
        (sampleSeries.get ⟨i, h⟩).price = pr ∧
        (sampleSeries.get ⟨i, h⟩).date.code ≤ (Date.code ⟨2020, 1, 7⟩) ∧
        ∀ j (hj : j < sampleSeries.length),
          (sampleSeries.get ⟨j, hj⟩).date.code ≤ (Date.code ⟨2020, 1, 7⟩) → j ≤ i
     | none => ∀ j (hj : j < sampleSeries.length),
        (Date.code ⟨2020, 1, 7⟩) < (sampleSeries.get ⟨j, hj⟩).date.code) :=
  ⟨by decide, getPriceAtOrBefore_correct sampleSeries ⟨2020, 1, 7⟩ (by decide)⟩

/-! ### Date arithmetic lemmas for the navigation layer -/

lemma daysInMonth_ge (y m : Nat) : 28 ≤ daysInMonth y m := by
  unfold daysInMonth
  split_ifs <;> omega

lemma daysInMonth_le (y m : Nat) : daysInMonth y m ≤ 31 := by
  unfold daysInMonth
  split_ifs <;> omega

lemma maxDate_valid : maxDate.Valid := by decide

lemma nextDay_valid {dt : Date} (h : dt.Valid) : (nextDay dt).Valid := by
  obtain ⟨h1, h2, h3, h4⟩ := h
  have g1 := daysInMonth_ge dt.y (dt.m + 1)
  have g2 := daysInMonth_ge (dt.y + 1) 1
  unfold nextDay Date.Valid
  split_ifs with hd hm <;> simp <;> omega

lemma nextDay_code_lt {dt : Date} (h : dt.Valid) : dt.code < (nextDay dt).code := by
  obtain ⟨h1, h2, h3, h4⟩ := h
  have hd31 : dt.d ≤ 31 := le_trans h4 (daysInMonth_le _ _)
  unfold nextDay Date.code
  split_ifs <;> simp <;> omega

lemma plusDaysRaw_valid {dt : Date} (h : dt.Valid) (n : Nat) :
    (plusDaysRaw dt n).Valid := by
  induction n generalizing dt with
  | zero => exact h
  | succ n ih =>
    rw [plusDaysRaw, Function.iterate_succ_apply]
    exact ih (nextDay_valid h)

lemma plusDaysRaw_code_le {dt : Date} (h : dt.Valid) (n : Nat) :
    dt.code ≤ (plusDaysRaw dt n).code := by
  induction n generalizing dt with
  | zero => exact le_refl _
  | succ n ih =>
    rw [plusDaysRaw, Function.iterate_succ_apply]
    exact le_trans (le_of_lt (nextDay_code_lt h)) (ih (nextDay_valid h))

lemma clampDate_valid {dt : Date} (h : dt.Valid) : (clampDate dt).Valid := by
  unfold clampDate
  split_ifs
  · exact maxDate_valid
  · exact h

lemma clampDate_code_le_max (dt : Date) : (clampDate dt).code ≤ maxDate.code := by
  unfold clampDate
  split_ifs with hcl
  · exact le_refl _
  · omega

lemma clampDate_eq_of_le {dt : Date} (h : dt.code ≤ maxDate.code) :
    clampDate dt = dt := by
  unfold clampDate
  rw [if_neg (by omega)]

/-- Lower bound of a clamped forward move: if the current date is within the
horizon and the raw target is not earlier, neither is the clamped target. -/
lemma clampDate_code_ge {cur raw : Date} (hle : cur.code ≤ maxDate.code)
    (hge : cur.code ≤ raw.code) : cur.code ≤ (clampDate raw).code := by
  unfold clampDate
  split_ifs <;> omega

lemma addMonthsRaw_valid {dt : Date} (h : dt.Valid) (k : Nat) :
    (addMonthsRaw dt k).Valid := by
  obtain ⟨h1, h2, h3, h4⟩ := h
  have hd31 : dt.d ≤ 31 := le_trans h4 (daysInMonth_le _ _)
  have g1 := daysInMonth_ge (dt.y + ((dt.m - 1) + k) / 12) (((dt.m - 1) + k) % 12 + 1)
  have g2 := daysInMonth_ge (dt.y + ((dt.m - 1) + k) / 12) (((dt.m - 1) + k) % 12 + 1 + 1)
  have g3 := daysInMonth_ge (dt.y + ((dt.m - 1) + k) / 12 + 1) 1
  unfold addMonthsRaw Date.Valid
  dsimp only
  split_ifs with hfit hlt <;> simp <;> omega

lemma daysBeforeMonth_succ {y m : Nat} (h1 : 1 ≤ m) (h2 : m ≤ 11) :
    daysBeforeMonth y (m + 1) = daysBeforeMonth y m + daysInMonth y m := by
  interval_cases m <;>
    unfold daysBeforeMonth daysInMonth <;>
    cases h : isLeap y <;> simp [h]

lemma leapsBefore_succ (y : Nat) (hy : 1 ≤ y) :
    leapsBefore y = leapsBefore (y - 1) + (if isLeap y then 1 else 0) := by
  by_cases hL : isLeap y = true
  · rw [if_pos hL]
    have hcond : (y % 4 = 0 ∧ y % 100 ≠ 0) ∨ y % 400 = 0 := by
      simpa [isLeap, Bool.or_eq_true, Bool.and_eq_true, decide_eq_true_iff] using hL
    unfold leapsBefore
    omega
  · rw [if_neg hL]
    have hcond : ¬ ((y % 4 = 0 ∧ y % 100 ≠ 0) ∨ y % 400 = 0) := by
      intro hc
      refine hL ?_
      unfold isLeap
      rcases hc with ⟨h4, h100⟩ | h400
      · simp [h4, h100]
      · simp [h400]
    unfold leapsBefore
    omega

lemma nextDay_y_ge (dt : Date) : dt.y ≤ (nextDay dt).y := by
  unfold nextDay
  split_ifs <;> simp

/-- A calendar step increments the serial day count, so weekday arithmetic
matches JS `getUTCDay`. -/
lemma dayNumber_nextDay {dt : Date} (h : dt.Valid) (hy : 1 ≤ dt.y) :
    dayNumber (nextDay dt) = dayNumber dt + 1 := by
  obtain ⟨h1, h2, h3, h4⟩ := h
  unfold nextDay
  split_ifs with hd hm
  · unfold dayNumber
    simp
    omega
  · have hsucc := @daysBeforeMonth_succ dt.y dt.m h1 (by omega)
    unfold dayNumber
    simp
    omega
  · have hm12 : dt.m = 12 := by omega
    have hdim : daysInMonth dt.y 12 = 31 := by unfold daysInMonth; simp
    have hd31 : dt.d = 31 := by rw [hm12] at h4 hd; omega
    have hls := leapsBefore_succ dt.y hy
    have e1 : daysBeforeMonth (dt.y + 1) 1 = 0 := by
      unfold daysBeforeMonth; simp
    have e2 : daysBeforeMonth dt.y 12 = 334 + (if isLeap dt.y then 1 else 0) := by
      unfold daysBeforeMonth; norm_num
    unfold dayNumber
    rw [hm12, hd31]
    simp only [e1, e2]
    simp only [show dt.y + 1 - 1 = dt.y from by omega]
    by_cases hL : isLeap dt.y = true
    · simp [hL] at hls ⊢
      omega
    · have hLf : isLeap dt.y = false := by simpa using hL
      simp [hLf] at hls ⊢
      omega

lemma weekday_nextDay {dt : Date} (h : dt.Valid) (hy : 1 ≤ dt.y) :
    weekday (nextDay dt) = (weekday dt + 1) % 7 := by
  unfold weekday
  rw [dayNumber_nextDay h hy]
  omega

lemma plusDaysRaw_weekday {dt : Date} (h : dt.Valid) (hy : 1 ≤ dt.y) (n : Nat) :
    weekday (plusDaysRaw dt n) = (weekday dt + n) % 7 := by
  induction n generalizing dt with
  | zero =>
    show weekday dt = (weekday dt + 0) % 7
    unfold weekday
    omega
  | succ n ih =>
    rw [plusDaysRaw, Function.iterate_succ_apply]
    have := @ih (nextDay dt) (nextDay_valid h)
      (le_trans hy (nextDay_y_ge dt))
    rw [plusDaysRaw] at this
    rw [this, weekday_nextDay h hy]
    omega

lemma addMonthsRaw_code_lt {dt : Date} (h : dt.Valid) {k : Nat} (hk : 1 ≤ k) :
    dt.code < (addMonthsRaw dt k).code := by
  obtain ⟨h1, h2, h3, h4⟩ := h
  have hd31 : dt.d ≤ 31 := le_trans h4 (daysInMonth_le _ _)
  have hge := daysInMonth_ge (dt.y + ((dt.m - 1) + k) / 12) (((dt.m - 1) + k) % 12 + 1)
  have hle' := daysInMonth_le (dt.y + ((dt.m - 1) + k) / 12) (((dt.m - 1) + k) % 12 + 1)
  unfold addMonthsRaw Date.code
  dsimp only
  split_ifs with hfit hlt <;> simp <;> omega

/-! ### Clock navigation handlers -/

/-- The navigation-relevant fields of the system record. -/
structure ClockState where
  currentDate : Date
  timeOfDay : TimeOfDay
deriving DecidableEq, Repr

/-- Which message the handler leaves showing (`jumpError` contents). -/
inductive JumpMsg
  | maxDateMsg
  | backwardMsg
deriving DecidableEq, Repr

/-- Result of one navigation handler: the stored system state plus the
message banner it leaves visible. -/
structure NavOut where
  sys : ClockState
  msg : Option JumpMsg
deriving DecidableEq, Repr

/-- `jumpWeek.onclick`: +7 days, clamped; phase reset to open. -/
def jumpWeekOp (s : ClockState) : NavOut :=
  if s.currentDate = maxDate then ⟨s, some JumpMsg.maxDateMsg⟩
  else
    let nextDate := plusDays s.currentDate 7
    ⟨⟨nextDate, TimeOfDay.tOpen⟩,
      if nextDate = maxDate ∧ nextDate ≠ s.currentDate then some JumpMsg.maxDateMsg
      else none⟩

/-- `jumpMonth.onclick`: +1 month, clamped; phase reset to open. -/
def jumpMonthOp (s : ClockState) : NavOut :=
  if s.currentDate = maxDate then ⟨s, some JumpMsg.maxDateMsg⟩
  else
    let nextDate := addMonths s.currentDate 1
    ⟨⟨nextDate, TimeOfDay.tOpen⟩,
      if nextDate = maxDate ∧ nextDate ≠ s.currentDate then some JumpMsg.maxDateMsg
      else none⟩

/-- `jumpYear.onclick`: +12 months, clamped; phase reset to open. -/
def jumpYearOp (s : ClockState) : NavOut :=
  if s.currentDate = maxDate then ⟨s, some JumpMsg.maxDateMsg⟩
  else
    let nextDate := addMonths s.currentDate 12
    ⟨⟨nextDate, TimeOfDay.tOpen⟩,
      if nextDate = maxDate ∧ nextDate ≠ s.currentDate then some JumpMsg.maxDateMsg
      else none⟩

/-- `nextBtn.onclick`: open→close on the same day, close→next day open. -/
def nextBtnOp (s : ClockState) : NavOut :=
  if s.currentDate = maxDate ∧ s.timeOfDay = TimeOfDay.tClose then
    ⟨s, some JumpMsg.maxDateMsg⟩
  else if s.timeOfDay = TimeOfDay.tOpen then
    ⟨⟨s.currentDate, TimeOfDay.tClose⟩, none⟩
  else
    let nextDate := plusDays s.currentDate 1
    ⟨⟨nextDate, TimeOfDay.tOpen⟩,
      if nextDate = maxDate ∧ nextDate ≠ s.currentDate then some JumpMsg.maxDateMsg
      else none⟩

/-- `skipWeekend.onclick`: Saturday +2, Sunday +1, weekday +(6 − dow). -/
def skipWeekendOp (s : ClockState) : NavOut :=
  if s.currentDate = maxDate ∧ isWeekend s.currentDate then
    ⟨s, some JumpMsg.maxDateMsg⟩
  else
    let dow := weekday s.currentDate
    let days := if dow = 6 then 2 else if dow = 0 then 1 else 6 - dow
    let nextDate := plusDays s.currentDate days
    ⟨⟨nextDate, TimeOfDay.tOpen⟩,
      if nextDate = maxDate ∧ nextDate ≠ s.currentDate then some JumpMsg.maxDateMsg
      else none⟩

/-- `jumpForm.onsubmit`: explicit target date, clamped; rejected with an
error and no state change if it precedes the current date. -/
def jumpFormOp (s : ClockState) (target : Date) : NavOut :=
  let iso := clampDate target
  if iso.code < s.currentDate.code then ⟨s, some JumpMsg.backwardMsg⟩
  else
    ⟨⟨iso, TimeOfDay.tOpen⟩,
      if iso = maxDate ∧ maxDate.code < target.code then some JumpMsg.maxDateMsg
      else none⟩

/-- One navigation request (the explicit jump carries its target date). -/
inductive Nav
  | week
  | monthStep
  | yearStep
  | nextSession
  | skipW
  | jumpTo (target : Date)

/-- Apply a navigation request to the stored clock state. -/
def applyNav (s : ClockState) : Nav → ClockState
  | Nav.week => (jumpWeekOp s).sys
  | Nav.monthStep => (jumpMonthOp s).sys
  | Nav.yearStep => (jumpYearOp s).sys
  | Nav.nextSession => (nextBtnOp s).sys
  | Nav.skipW => (skipWeekendOp s).sys
  | Nav.jumpTo t => (jumpFormOp s t).sys

/-- Single-step facts: every handler keeps the date valid, within the
horizon, and non-decreasing. -/
lemma applyNav_step (s : ClockState) (n : Nav)
    (hv : s.currentDate.Valid) (hle : s.currentDate.code ≤ maxDate.code)
    (ht : ∀ t, n = Nav.jumpTo t → t.Valid) :
    s.currentDate.code ≤ (applyNav s n).currentDate.code ∧
    (applyNav s n).currentDate.Valid ∧
    (applyNav s n).currentDate.code ≤ maxDate.code := by
  have hstep : ∀ raw : Date, raw.Valid → s.currentDate.code ≤ raw.code →
      s.currentDate.code ≤ (clampDate raw).code ∧ (clampDate raw).Valid ∧
      (clampDate raw).code ≤ maxDate.code :=
    fun raw hvr hger =>
      ⟨clampDate_code_ge hle hger, clampDate_valid hvr, clampDate_code_le_max raw⟩
  cases n with
  | week =>
    unfold applyNav jumpWeekOp plusDays
    by_cases hmax : s.currentDate = maxDate
    · rw [if_pos hmax]
      exact ⟨le_refl _, hv, hle⟩
    · rw [if_neg hmax]
      dsimp only
      exact hstep _ (plusDaysRaw_valid hv 7) (plusDaysRaw_code_le hv 7)
  | monthStep =>
    unfold applyNav jumpMonthOp addMonths
    by_cases hmax : s.currentDate = maxDate
    · rw [if_pos hmax]
      exact ⟨le_refl _, hv, hle⟩
    · rw [if_neg hmax]
      dsimp only
      exact hstep _ (addMonthsRaw_valid hv 1)
        (le_of_lt (addMonthsRaw_code_lt hv (by omega)))
  | yearStep =>
    unfold applyNav jumpYearOp addMonths
    by_cases hmax : s.currentDate = maxDate
    · rw [if_pos hmax]
      exact ⟨le_refl _, hv, hle⟩
    · rw [if_neg hmax]
      dsimp only
      exact hstep _ (addMonthsRaw_valid hv 12)
        (le_of_lt (addMonthsRaw_code_lt hv (by omega)))
  | nextSession =>
    unfold applyNav nextBtnOp plusDays
    by_cases hmax : s.currentDate = maxDate ∧ s.timeOfDay = TimeOfDay.tClose
    · rw [if_pos hmax]
      exact ⟨le_refl _, hv, hle⟩
    · rw [if_neg hmax]
      by_cases hopen : s.timeOfDay = TimeOfDay.tOpen
      · rw [if_pos hopen]
        exact ⟨le_refl _, hv, hle⟩
      · rw [if_neg hopen]
        dsimp only
        exact hstep _ (plusDaysRaw_valid hv 1) (plusDaysRaw_code_le hv 1)
  | skipW =>
    unfold applyNav skipWeekendOp plusDays
    by_cases hmax : s.currentDate = maxDate ∧ isWeekend s.currentDate
    · rw [if_pos hmax]
      exact ⟨le_refl _, hv, hle⟩
    · rw [if_neg hmax]
      dsimp only
      exact hstep _ (plusDaysRaw_valid hv _) (plusDaysRaw_code_le hv _)
  | jumpTo t =>
    have htv : t.Valid := ht t rfl
    unfold applyNav jumpFormOp
    dsimp only
    by_cases hback : (clampDate t).code < s.currentDate.code
    · rw [if_pos hback]
      exact ⟨le_refl _, hv, hle⟩
    · rw [if_neg hback]
      dsimp only
      exact ⟨by omega, clampDate_valid htv, clampDate_code_le_max t⟩

/-- C7: over any sequence of navigation operations the current date never
decreases, and an explicit jump whose clamped target precedes the current
date is rejected with an error and no state change. -/
theorem monotonic_clock :
    (∀ (navs : List Nav) (s : ClockState),
      s.currentDate.Valid → s.currentDate.code ≤ maxDate.code →
      (∀ t, Nav.jumpTo t ∈ navs → t.Valid) →
      s.currentDate.code ≤ (navs.foldl applyNav s).currentDate.code) ∧
    (∀ (s : ClockState) (target : Date),
      (clampDate target).code < s.currentDate.code →
      jumpFormOp s target = ⟨s, some JumpMsg.backwardMsg⟩) := by
  constructor
  · intro navs
    induction navs with
    | nil => intro s _ _ _; exact le_refl _
    | cons n rest ih =>
      intro s hv hle ht
      have hstep := applyNav_step s n hv hle
        (fun t hnt => ht t (hnt ▸ List.mem_cons_self _ _))
      have hrest := ih (applyNav s n) hstep.2.1 hstep.2.2
        (fun t hmem => ht t (List.mem_cons_of_mem _ hmem))
      calc s.currentDate.code ≤ (applyNav s n).currentDate.code := hstep.1
        _ ≤ ((rest.foldl applyNav (applyNav s n))).currentDate.code := hrest
  · intro s target hback
    unfold jumpFormOp
    rw [if_pos hback]

/-- Witness for C7: a concrete mixed navigation sequence (sessions, jumps,
weekend skip, an explicit jump) never moves the clock backwards, and a
backward explicit jump is rejected in place. -/
theorem monotonic_clock_witness :
    (Date.code ⟨2020, 1, 15⟩ ≤
      (([Nav.nextSession, Nav.week, Nav.monthStep, Nav.skipW,
          Nav.jumpTo ⟨2021, 6, 1⟩, Nav.yearStep].foldl applyNav
          ⟨⟨2020, 1, 15⟩, TimeOfDay.tOpen⟩)).currentDate.code) ∧
    jumpFormOp ⟨⟨2020, 1, 15⟩, TimeOfDay.tOpen⟩ ⟨2019, 3, 1⟩
      = ⟨⟨⟨2020, 1, 15⟩, TimeOfDay.tOpen⟩, some JumpMsg.backwardMsg⟩ :=
  ⟨monotonic_clock.1 [Nav.nextSession, Nav.week, Nav.monthStep, Nav.skipW,
      Nav.jumpTo ⟨2021, 6, 1⟩, Nav.yearStep] ⟨⟨2020, 1, 15⟩, TimeOfDay.tOpen⟩
      (by decide) (by decide)
      (by
        intro t hmem
        simp only [List.mem_cons, List.not_mem_nil, or_false] at hmem
        rcases hmem with h | h | h | h | h | h
        · cases h
        · cases h
        · cases h
        · cases h
        · injection h with h2
          subst h2
          decide
        · cases h),
   monotonic_clock.2 ⟨⟨2020, 1, 15⟩, TimeOfDay.tOpen⟩ ⟨2019, 3, 1⟩ (by decide)⟩

/-- Counterexample for C8 as stated: 2020-01-15 is a Wednesday (neither
Saturday nor Sunday), yet `skipWeekend` *changes* the current date (it jumps
to the upcoming Saturday) instead of being a no-op. -/
theorem skip_weekend_counterexample :
    weekday ⟨2020, 1, 15⟩ ≠ 0 ∧ weekday ⟨2020, 1, 15⟩ ≠ 6 ∧
    (skipWeekendOp ⟨⟨2020, 1, 15⟩, TimeOfDay.tOpen⟩).sys.currentDate
      = ⟨2020, 1, 18⟩ ∧
    (⟨2020, 1, 18⟩ : Date) ≠ ⟨2020, 1, 15⟩ := by decide

/-- C8 (amended): on a Saturday `skipWeekend` advances two days to the next
Monday (the day in between is not a Monday), on a Sunday one day to the next
Monday; on a weekday it is *not* a no-op — it advances `6 - dow` days to the
upcoming Saturday (the UI merely hides the button on weekdays). -/
theorem skip_weekend_amended (s : ClockState) (hv : s.currentDate.Valid)
    (hy : 1 ≤ s.currentDate.y) :
    (weekday s.currentDate = 6 →
      (skipWeekendOp s).sys.currentDate = plusDays s.currentDate 2 ∧
      ((plusDaysRaw s.currentDate 2).code ≤ maxDate.code →
        weekday (skipWeekendOp s).sys.currentDate = 1 ∧
        weekday (plusDaysRaw s.currentDate 1) ≠ 1)) ∧
    (weekday s.currentDate = 0 →
      (skipWeekendOp s).sys.currentDate = plusDays s.currentDate 1 ∧
      ((plusDaysRaw s.currentDate 1).code ≤ maxDate.code →
        weekday (skipWeekendOp s).sys.currentDate = 1)) ∧
    (1 ≤ weekday s.currentDate → weekday s.currentDate ≤ 5 →
      (skipWeekendOp s).sys.currentDate
        = plusDays s.currentDate (6 - weekday s.currentDate) ∧
      ((plusDaysRaw s.currentDate (6 - weekday s.currentDate)).code ≤ maxDate.code →
        weekday (skipWeekendOp s).sys.currentDate = 6)) := by
  have hwmax : weekday maxDate = 3 := by decide
  refine ⟨fun hdow => ?_, fun hdow => ?_, fun hdow1 hdow5 => ?_⟩
  · have hguard : ¬ (s.currentDate = maxDate ∧ isWeekend s.currentDate) := by
      rintro ⟨heq, _⟩
      rw [heq] at hdow
      omega
    unfold skipWeekendOp
    rw [if_neg hguard]
    simp only [hdow]
    norm_num
    intro hnc
    rw [plusDays, clampDate_eq_of_le hnc]
    constructor
    · rw [plusDaysRaw_weekday hv hy 2, hdow]
    · rw [plusDaysRaw_weekday hv hy 1, hdow]
      omega
  · have hguard : ¬ (s.currentDate = maxDate ∧ isWeekend s.currentDate) := by
      rintro ⟨heq, _⟩
      rw [heq] at hdow
      omega
    unfold skipWeekendOp
    rw [if_neg hguard]
    simp only [hdow]
    norm_num
    intro hnc
    rw [plusDays, clampDate_eq_of_le hnc]
    rw [plusDaysRaw_weekday hv hy 1, hdow]
  · have hguard : ¬ (s.currentDate = maxDate ∧ isWeekend s.currentDate) := by
      rintro ⟨_, hwk⟩
      unfold isWeekend at hwk
      simp only [Bool.or_eq_true, decide_eq_true_iff] at hwk
      omega
    unfold skipWeekendOp
    rw [if_neg hguard]
    have h6 : ¬ weekday s.currentDate = 6 := by omega
    have h0 : ¬ weekday s.currentDate = 0 := by omega
    simp only [h6, h0, if_false]
    norm_num
    intro hnc
    rw [plusDays, clampDate_eq_of_le hnc]
    rw [plusDaysRaw_weekday hv hy _]
    omega

/-- Witness for C8 (amended): Saturday 2020-01-18 skips to Monday 2020-01-20,
and Wednesday 2020-01-15 advances to the upcoming Saturday. -/
theorem skip_weekend_amended_witness :
    ((skipWeekendOp ⟨⟨2020, 1, 18⟩, TimeOfDay.tOpen⟩).sys.currentDate
        = plusDays ⟨2020, 1, 18⟩ 2 ∧
      ((plusDaysRaw (⟨2020, 1, 18⟩ : Date) 2).code ≤ maxDate.code →
        weekday (skipWeekendOp ⟨⟨2020, 1, 18⟩, TimeOfDay.tOpen⟩).sys.currentDate
          = 1 ∧
        weekday (plusDaysRaw ⟨2020, 1, 18⟩ 1) ≠ 1)) ∧
    ((skipWeekendOp ⟨⟨2020, 1, 15⟩, TimeOfDay.tOpen⟩).sys.currentDate
        = plusDays ⟨2020, 1, 15⟩ (6 - weekday ⟨2020, 1, 15⟩) ∧
      ((plusDaysRaw (⟨2020, 1, 15⟩ : Date)
          (6 - weekday ⟨2020, 1, 15⟩)).code ≤ maxDate.code →
        weekday (skipWeekendOp ⟨⟨2020, 1, 15⟩, TimeOfDay.tOpen⟩).sys.currentDate
          = 6)) :=
  ⟨(skip_weekend_amended ⟨⟨2020, 1, 18⟩, TimeOfDay.tOpen⟩ (by decide) (by decide)).1
      (by decide),
   (skip_weekend_amended ⟨⟨2020, 1, 15⟩, TimeOfDay.tOpen⟩ (by decide)
      (by decide)).2.2 (by decide) (by decide)⟩

/-! ### Portfolio-history persistence (`db.ts`) -/

/-- A stored `PortfolioHistoryEntry` (`{date, time, value}`). -/
structure HistEntry where
  date : Date
  time : TimeOfDay
  value : ℚ
deriving DecidableEq, Repr

/-- Source `appendPortfolioHistory` (db.ts): seed an empty history with a
`GAME_START_DATE`/open entry carrying the incoming value, then overwrite the
*last* entry when its `(date, time)` key matches, else push. -/
def appendPortfolioHistory (hist : List HistEntry) (e : HistEntry) :
    List HistEntry :=
  let hist1 :=
    if hist.isEmpty then hist ++ [⟨gameStartDate, TimeOfDay.tOpen, e.value⟩]
    else hist
  match hist1.getLast? with
  | some last =>
    if last.date = e.date ∧ last.time = e.time then hist1.dropLast ++ [e]
    else hist1 ++ [e]
  | none => hist1 ++ [e]

/-- Adjacent entries carry different `(date, time)` keys. -/
def AdjacentKeysDistinct (hist : List HistEntry) : Prop :=
  List.Chain' (fun a b => ¬ (a.date = b.date ∧ a.time = b.time)) hist

/-- C9 (amended): a write overwrites in place only when its key equals the
*most recent* entry's key; any other write appends (after seeding an empty
history); consequently no two *adjacent* entries share a key — but a write
may duplicate the key of an older, non-final entry. -/
theorem append_history_amended :
    (∀ e, appendPortfolioHistory [] e
      = if gameStartDate = e.date ∧ TimeOfDay.tOpen = e.time
        then [e] else [⟨gameStartDate, TimeOfDay.tOpen, e.value⟩, e]) ∧
    (∀ hist e last, hist.getLast? = some last →
      (last.date = e.date ∧ last.time = e.time) →
      appendPortfolioHistory hist e = hist.dropLast ++ [e]) ∧
    (∀ hist e last, hist.getLast? = some last →
      ¬ (last.date = e.date ∧ last.time = e.time) →
      appendPortfolioHistory hist e = hist ++ [e]) ∧
    (∀ hist e, AdjacentKeysDistinct hist →
      AdjacentKeysDistinct (appendPortfolioHistory hist e)) := by
  have hne_empty : ∀ (hist : List HistEntry) last, hist.getLast? = some last →
      hist.isEmpty = false := by
    intro hist last hlast
    cases hist with
    | nil => simp at hlast
    | cons x t => rfl
  refine ⟨fun e => ?_, fun hist e last hlast hkey => ?_,
    fun hist e last hlast hkey => ?_, fun hist e hchain => ?_⟩
  · unfold appendPortfolioHistory
    simp only [List.isEmpty_nil, if_true, List.nil_append, List.getLast?_singleton]
    by_cases hkey : gameStartDate = e.date ∧ TimeOfDay.tOpen = e.time
    · rw [if_pos hkey, if_pos hkey]
      rfl
    · rw [if_neg hkey, if_neg hkey]
      rfl
  · unfold appendPortfolioHistory
    simp only [hne_empty hist last hlast, Bool.false_eq_true, if_false, hlast]
    rw [if_pos hkey]
  · unfold appendPortfolioHistory
    simp only [hne_empty hist last hlast, Bool.false_eq_true, if_false, hlast]
    rw [if_neg hkey]
  · cases hist with
    | nil =>
      unfold appendPortfolioHistory
      simp only [List.isEmpty_nil, if_true, List.nil_append, List.getLast?_singleton]
      by_cases hkey : gameStartDate = e.date ∧ TimeOfDay.tOpen = e.time
      · rw [if_pos hkey]
        exact List.chain'_singleton e
      · rw [if_neg hkey]
        exact List.chain'_pair.mpr hkey
    | cons x t =>
      have hne : (x :: t) ≠ [] := by simp
      obtain ⟨last, hlast⟩ : ∃ l, (x :: t).getLast? = some l :=
        ⟨(x :: t).getLast hne, List.getLast?_eq_getLast _ hne⟩
      unfold appendPortfolioHistory
      simp only [List.isEmpty_cons, Bool.false_eq_true, if_false, hlast]
      have hsplit : (x :: t).dropLast ++ [last] = x :: t := by
        have h1 := List.dropLast_append_getLast hne
        have h3 := List.getLast?_eq_getLast (x :: t) hne
        rw [h3] at hlast
        rw [Option.some_inj.mp hlast] at h1
        exact h1
      by_cases hkey : last.date = e.date ∧ last.time = e.time
      · rw [if_pos hkey]
        have hch : List.Chain' (fun a b => ¬ (a.date = b.date ∧ a.time = b.time))
            ((x :: t).dropLast ++ [last]) := by rw [hsplit]; exact hchain
        rw [List.chain'_append] at hch
        refine List.chain'_append.mpr ⟨hch.1, List.chain'_singleton e, ?_⟩
        intro a ha b hb
        have hb' : e = b := by simpa using hb
        have hRa := hch.2.2 a ha last (by simp)
        subst hb'
        intro hcontra
        exact hRa ⟨hcontra.1.trans hkey.1.symm, hcontra.2.trans hkey.2.symm⟩
      · rw [if_neg hkey]
        refine List.chain'_append.mpr ⟨hchain, List.chain'_singleton e, ?_⟩
        intro a ha b hb
        have hb' : e = b := by simpa using hb
        rw [hlast] at ha
        have ha' : last = a := by simpa using ha
        subst ha' hb'
        exact hkey

/-- Witness for C9 (amended): a write keyed like the last entry overwrites
it in place; a fresh-keyed write appends. -/
theorem append_history_amended_witness :
    (appendPortfolioHistory
        [⟨⟨2020, 1, 6⟩, TimeOfDay.tOpen, 1⟩, ⟨⟨2020, 1, 7⟩, TimeOfDay.tOpen, 2⟩]
        ⟨⟨2020, 1, 7⟩, TimeOfDay.tOpen, 5⟩
      = [⟨⟨2020, 1, 6⟩, TimeOfDay.tOpen, 1⟩,
          ⟨⟨2020, 1, 7⟩, TimeOfDay.tOpen, 2⟩].dropLast ++
          [⟨⟨2020, 1, 7⟩, TimeOfDay.tOpen, 5⟩]) ∧
    (appendPortfolioHistory
        [⟨⟨2020, 1, 6⟩, TimeOfDay.tOpen, 1⟩, ⟨⟨2020, 1, 7⟩, TimeOfDay.tOpen, 2⟩]
        ⟨⟨2020, 1, 8⟩, TimeOfDay.tOpen, 5⟩
      = [⟨⟨2020, 1, 6⟩, TimeOfDay.tOpen, 1⟩,
          ⟨⟨2020, 1, 7⟩, TimeOfDay.tOpen, 2⟩] ++
          [⟨⟨2020, 1, 8⟩, TimeOfDay.tOpen, 5⟩]) :=
  ⟨append_history_amended.2.1
      [⟨⟨2020, 1, 6⟩, TimeOfDay.tOpen, 1⟩, ⟨⟨2020, 1, 7⟩, TimeOfDay.tOpen, 2⟩]
      ⟨⟨2020, 1, 7⟩, TimeOfDay.tOpen, 5⟩ ⟨⟨2020, 1, 7⟩, TimeOfDay.tOpen, 2⟩
      (by decide) (by decide),
   append_history_amended.2.2.1
      [⟨⟨2020, 1, 6⟩, TimeOfDay.tOpen, 1⟩, ⟨⟨2020, 1, 7⟩, TimeOfDay.tOpen, 2⟩]
      ⟨⟨2020, 1, 8⟩, TimeOfDay.tOpen, 5⟩ ⟨⟨2020, 1, 7⟩, TimeOfDay.tOpen, 2⟩
      (by decide) (by decide)⟩

/-- Counterexample for C9 as stated: a write keyed like the *first* (not
last) stored entry appends instead of overwriting, leaving two entries with
the same `(date, sessionPhase)` key in the stored history. -/
theorem append_history_counterexample :
    appendPortfolioHistory
      [⟨⟨2020, 1, 6⟩, TimeOfDay.tOpen, 1⟩, ⟨⟨2020, 1, 7⟩, TimeOfDay.tOpen, 2⟩]
      ⟨⟨2020, 1, 6⟩, TimeOfDay.tOpen, 3⟩
      = [⟨⟨2020, 1, 6⟩, TimeOfDay.tOpen, 1⟩, ⟨⟨2020, 1, 7⟩, TimeOfDay.tOpen, 2⟩,
         ⟨⟨2020, 1, 6⟩, TimeOfDay.tOpen, 3⟩] ∧
    ¬ List.Pairwise (fun a b => ¬ (a.date = b.date ∧ a.time = b.time))
      (appendPortfolioHistory
        [⟨⟨2020, 1, 6⟩, TimeOfDay.tOpen, 1⟩, ⟨⟨2020, 1, 7⟩, TimeOfDay.tOpen, 2⟩]
        ⟨⟨2020, 1, 6⟩, TimeOfDay.tOpen, 3⟩) := by decide

/-- C10: appending to an empty stored history first inserts a synthetic
`⟨GAME_START_DATE, open, entry.value⟩` entry, so after any append the
history is non-empty, its first entry's key survives later appends, and
(when the entry does not predate the game start) the earliest recorded date
is `GAME_START_DATE`. -/
theorem append_history_seeding :
    (∀ e, (appendPortfolioHistory [] e).head?
      = some ⟨gameStartDate, TimeOfDay.tOpen, e.value⟩) ∧
    (∀ hist e, appendPortfolioHistory hist e ≠ []) ∧
    (∀ (hist : List HistEntry) e h0, hist.head? = some h0 →
      ∃ h1, (appendPortfolioHistory hist e).head? = some h1 ∧
        h1.date = h0.date ∧ h1.time = h0.time) ∧
    (∀ e, gameStartDate.code ≤ e.date.code →
      (∀ x ∈ appendPortfolioHistory [] e, gameStartDate.code ≤ x.date.code) ∧
      ∃ x ∈ appendPortfolioHistory [] e, x.date = gameStartDate) := by
  have hempty : ∀ e : HistEntry, appendPortfolioHistory [] e
      = if gameStartDate = e.date ∧ TimeOfDay.tOpen = e.time
        then [e] else [⟨gameStartDate, TimeOfDay.tOpen, e.value⟩, e] := by
    intro e
    unfold appendPortfolioHistory
    simp only [List.isEmpty_nil, if_true, List.nil_append, List.getLast?_singleton]
    by_cases hkey : gameStartDate = e.date ∧ TimeOfDay.tOpen = e.time
    · rw [if_pos hkey, if_pos hkey]
      rfl
    · rw [if_neg hkey, if_neg hkey]
      rfl
  refine ⟨fun e => ?_, fun hist e => ?_, fun hist e h0 hh0 => ?_,
    fun e hge => ?_⟩
  · rw [hempty e]
    by_cases hkey : gameStartDate = e.date ∧ TimeOfDay.tOpen = e.time
    · rw [if_pos hkey]
      simp only [List.head?_cons, Option.some_inj]
      cases e with
      | mk d t v =>
        cases hkey.1
        cases hkey.2
        rfl
    · rw [if_neg hkey]
      rfl
  · cases hist with
    | nil =>
      rw [hempty e]
      split <;> simp
    | cons x t =>
      have hne : (x :: t) ≠ [] := by simp
      obtain ⟨last, hlast⟩ : ∃ l, (x :: t).getLast? = some l :=
        ⟨(x :: t).getLast hne, List.getLast?_eq_getLast _ hne⟩
      unfold appendPortfolioHistory
      simp only [List.isEmpty_cons, Bool.false_eq_true, if_false, hlast]
      split <;> simp
  · cases hist with
    | nil => simp at hh0
    | cons x t =>
      have hx : h0 = x := by simpa using hh0.symm
      subst hx
      have hne : (h0 :: t) ≠ [] := by simp
      obtain ⟨last, hlast⟩ : ∃ l, (h0 :: t).getLast? = some l :=
        ⟨(h0 :: t).getLast hne, List.getLast?_eq_getLast _ hne⟩
      unfold appendPortfolioHistory
      simp only [List.isEmpty_cons, Bool.false_eq_true, if_false, hlast]
      by_cases hkey : last.date = e.date ∧ last.time = e.time
      · rw [if_pos hkey]
        cases t with
        | nil =>
          have hlx : last = h0 := by
            have := hlast
            simp at this
            exact this.symm
          refine ⟨e, rfl, ?_, ?_⟩
          · rw [← hkey.1, hlx]
          · rw [← hkey.2, hlx]
        | cons y t' =>
          refine ⟨h0, ?_, rfl, rfl⟩
          rw [List.dropLast_cons₂]
          rfl
      · rw [if_neg hkey]
        exact ⟨h0, rfl, rfl, rfl⟩
  · rw [hempty e]
    by_cases hkey : gameStartDate = e.date ∧ TimeOfDay.tOpen = e.time
    · rw [if_pos hkey]
      refine ⟨?_, e, by simp, hkey.1.symm⟩
      intro x hx
      have hxe : x = e := by simpa using hx
      subst hxe
      exact hge
    · rw [if_neg hkey]
      refine ⟨?_, ⟨gameStartDate, TimeOfDay.tOpen, e.value⟩, by simp, rfl⟩
      intro x hx
      rcases (by simpa using hx :
          x = (⟨gameStartDate, TimeOfDay.tOpen, e.value⟩ : HistEntry) ∨ x = e) with
        h | h
      · subst h
        exact le_refl _
      · subst h
        exact hge

/-- Witness for C10: appending to an empty history seeds the game-start
entry; appending to a non-empty history keeps the first entry's key; the
earliest date after seeding is the game start. -/
theorem append_history_seeding_witness :
    ((appendPortfolioHistory [] ⟨⟨2020, 3, 2⟩, TimeOfDay.tOpen, 777⟩).head?
      = some ⟨gameStartDate, TimeOfDay.tOpen, 777⟩) ∧
    (∃ h1, (appendPortfolioHistory [⟨⟨2020, 1, 6⟩, TimeOfDay.tOpen, 1⟩]
        ⟨⟨2020, 1, 7⟩, TimeOfDay.tClose, 5⟩).head? = some h1 ∧
      h1.date = Date.mk 2020 1 6 ∧ h1.time = TimeOfDay.tOpen) ∧
    (∀ x ∈ appendPortfolioHistory [] ⟨⟨2020, 3, 2⟩, TimeOfDay.tOpen, 777⟩,
      gameStartDate.code ≤ x.date.code) :=
  ⟨append_history_seeding.1 ⟨⟨2020, 3, 2⟩, TimeOfDay.tOpen, 777⟩,
   append_history_seeding.2.2.1 [⟨⟨2020, 1, 6⟩, TimeOfDay.tOpen, 1⟩]
      ⟨⟨2020, 1, 7⟩, TimeOfDay.tClose, 5⟩ ⟨⟨2020, 1, 6⟩, TimeOfDay.tOpen, 1⟩
      (by decide),
   (append_history_seeding.2.2.2 ⟨⟨2020, 3, 2⟩, TimeOfDay.tOpen, 777⟩
      (by decide)).1⟩


/-! ### HistoryReconstructor: `computeFilledMonthlyHistory` -/

/-- A derived monthly point (`{date, value}`). -/
structure MPoint where
  date : Date
  value : ℚ
deriving DecidableEq, Repr

/-- Source `toMonthKey` returns the `"YYYY-MM"` prefix; for valid zero-padded
dates, comparing those strings is comparing `y * 12 + m`. -/
def monthCode (y m : Nat) : Nat := y * 12 + m

/-- Month key of a date. -/
def Date.monthCode (dt : Date) : Nat := NewGame.monthCode dt.y dt.m

/-- Source `monthEndDateStr`: `Date.UTC(year, month, 0)` is the last day of
`month`. -/
def monthEndDate (y m : Nat) : Date := ⟨y, m, daysInMonth y m⟩

/-- Source `incMonth`. -/
def incMonth (y m : Nat) : Nat × Nat :=
  if m + 1 > 12 then (y + 1, 1) else (y, m + 1)

/-- Recover `(year, month)` from a month key (the source re-parses the
`"YYYY-MM"` string). -/
def decodeMonth (c : Nat) : Nat × Nat := ((c - 1) / 12, (c - 1) % 12 + 1)

/-- Sort key of the `'open'`/`'close'` strings under `localeCompare`
(`"close" < "open"`). -/
def timeSortKey : TimeOfDay → Nat
  | TimeOfDay.tClose => 0
  | TimeOfDay.tOpen => 1

/-- The entry comparator `(a, b) => a.date === b.date ?
a.time.localeCompare(b.time) : a.date.localeCompare(b.date)` as a strict
order. -/
def entryLtB (a b : HistEntry) : Bool :=
  a.date.code < b.date.code ||
    (a.date.code == b.date.code && timeSortKey a.time < timeSortKey b.time)

/-- `[...entries].sort(cmp)[0]`: the first entry attaining the minimum of a
stable sort. -/
def findEarliest : List HistEntry → Option HistEntry
  | [] => none
  | e :: rest => some (rest.foldl (fun best x => if entryLtB x best then x else best) e)

/-- The seeded cash accumulator: the earliest entry's value, 10000 if the
stored history is empty. -/
def initialCash (entries : List HistEntry) : ℚ :=
  match findEarliest entries with
  | some e => e.value
  | none => 10000

/-- Step of the `perMonth` map construction: keep the latest-dated entry per
month (ties keep the earlier write, as `e.date > existing.date` is strict). -/
def perMonthStep (acc : List (Nat × MPoint)) (e : HistEntry) :
    List (Nat × MPoint) :=
  match acc.find? (fun kv => kv.1 == e.date.monthCode) with
  | none => acc ++ [(e.date.monthCode, ⟨e.date, e.value⟩)]
  | some kv =>
    if kv.2.date.code < e.date.code then
      acc.map (fun kv' =>
        if kv'.1 == e.date.monthCode then (kv'.1, ⟨e.date, e.value⟩) else kv')
    else acc

/-- The `perMonth` map: last known stored point per month. -/
def perMonthFold (entries : List HistEntry) : List (Nat × MPoint) :=
  entries.foldl perMonthStep []

/-- `startKey`: the smallest month key, or the game start's month for an
empty history. -/
def startCode (entries : List HistEntry) : Nat :=
  match (perMonthFold entries).map Prod.fst with
  | [] => Date.monthCode gameStartDate
  | k :: ks => ks.foldl min k

/-- `Map.set` on the share-count map (the key is known to be present). -/
def setShare (shares : List (String × ℚ)) (sym : String) (v : ℚ) :
    List (String × ℚ) :=
  shares.map (fun kv => if kv.1 == sym then (kv.1, v) else kv)

/-- Replay all transactions dated `≤ useDate` (in log order) onto the
share-count map and cash accumulator, mirroring the Ledger's effects from
the recorded totals; returns the unconsumed suffix. -/
def applyTxs (useDate : Date) :
    List Tx → List (String × ℚ) → ℚ → List Tx × List (String × ℚ) × ℚ
  | [], shares, cash => ([], shares, cash)
  | t :: rest, shares, cash =>
    if t.date.code ≤ useDate.code then
      let shares0 :=
        if (shares.find? (fun kv => kv.1 == t.symbol)).isSome then shares
        else shares ++ [(t.symbol, 0)]
      let cur := ((shares0.find? (fun kv => kv.1 == t.symbol)).map Prod.snd).getD 0
      match t.type with
      | TxType.BUY =>
        applyTxs useDate rest (setShare shares0 t.symbol (round4 (cur + t.shares)))
          (round2 (cash - t.total))
      | TxType.SELL =>
        applyTxs useDate rest
          (setShare shares0 t.symbol (max 0 (round4 (cur - t.shares))))
          (round2 (cash + t.total))
    else (t :: rest, shares, cash)

/-- Holdings value at the boundary date: positive share counts times their
looked-up price; missing prices contribute zero. -/
def holdingsValue (prices : Prices) (shares : List (String × ℚ))
    (useDate : Date) : ℚ :=
  shares.foldl
    (fun (hv : ℚ) (kv : String × ℚ) =>
      if kv.2 ≤ 0 then hv
      else
        match getPriceAtOrBefore (prices kv.1) useDate with
        | some p => hv + kv.2 * p
        | none => hv) (0 : ℚ)

/-- The month-walking loop of `computeFilledMonthlyHistory`.  The interval
`[monthCode y m, endCode]` shrinks by one each iteration, so running on
`fuel ≥ endCode + 1 - monthCode y m` is the untruncated `while` loop. -/
def fillGo (prices : Prices) (perMonth : List (Nat × MPoint))
    (currentDate : Date) (endCode : Nat) :
    Nat → Nat → Nat → List Tx → List (String × ℚ) → ℚ → List MPoint
  | 0, _, _, _, _, _ => []
  | fuel + 1, y, m, txs, shares, cash =>
    if monthCode y m ≤ endCode then
      let monthEnd := monthEndDate y m
      let useDate :=
        if monthCode y m = endCode ∧ currentDate.code < monthEnd.code then
          currentDate
        else monthEnd
      let res := applyTxs useDate txs shares cash
      let pt :=
        match perMonth.find? (fun kv => kv.1 == monthCode y m) with
        | some kv => kv.2
        | none => ⟨useDate, round2 (res.2.2 + holdingsValue prices res.2.1 useDate)⟩
      pt :: fillGo prices perMonth currentDate endCode fuel
        (incMonth y m).1 (incMonth y m).2 res.1 res.2.1 res.2.2
    else []

/-- The transaction comparator (same shape as the entry comparator). -/
def txLe (a b : Tx) : Prop :=
  a.date.code < b.date.code ∨
    (a.date.code = b.date.code ∧ timeSortKey a.time ≤ timeSortKey b.time)

instance : DecidableRel txLe := fun a b => by
  unfold txLe
  infer_instance

/-- The final `out.sort((a, b) => a.date.localeCompare(b.date))` order. -/
def mpLe (a b : MPoint) : Prop := a.date.code ≤ b.date.code

instance : DecidableRel mpLe := fun a b => by
  unfold mpLe
  infer_instance

/-- Source `computeFilledMonthlyHistory`: one valuation point per calendar
month from the earliest stored month (or the game start) through the month
of `currentDate`, preferring stored per-month values and otherwise valuing
carried-forward cash and holdings at the month boundary. -/
def computeFilledMonthlyHistory (prices : Prices) (entries : List HistEntry)
    (currentDate : Date) (txs0 : List Tx) : List MPoint :=
  let perMonth := perMonthFold entries
  let txs := List.insertionSort txLe txs0
  let start := startCode entries
  let endCode := currentDate.monthCode
  let y0 := (decodeMonth start).1
  let m0 := (decodeMonth start).2
  let out := fillGo prices perMonth currentDate endCode
    (endCode + 1 - start) y0 m0 txs [] (initialCash entries)
  List.insertionSort mpLe out


/-- Every `perMonth` binding is keyed by the month of its (valid) date. -/
lemma perMonthFold_inv (entries : List HistEntry)
    (hval : ∀ e ∈ entries, e.date.Valid) :
    ∀ kv ∈ perMonthFold entries, kv.1 = kv.2.date.monthCode ∧ kv.2.date.Valid := by
  have aux : ∀ (l : List HistEntry) (acc : List (Nat × MPoint)),
      (∀ e ∈ l, e.date.Valid) →
      (∀ kv ∈ acc, kv.1 = kv.2.date.monthCode ∧ kv.2.date.Valid) →
      ∀ kv ∈ l.foldl perMonthStep acc, kv.1 = kv.2.date.monthCode ∧ kv.2.date.Valid := by
    intro l
    induction l with
    | nil => intro acc _ hacc kv hkv; exact hacc kv hkv
    | cons e t ih =>
      intro acc hl hacc
      refine ih (perMonthStep acc e) (fun x hx => hl x (List.mem_cons_of_mem _ hx)) ?_
      intro kv hkv
      unfold perMonthStep at hkv
      rcases hfind : acc.find? (fun kv => kv.1 == e.date.monthCode) with _ | kv0
      · rw [hfind] at hkv
        dsimp only at hkv
        rcases List.mem_append.mp hkv with hmem | hmem
        · exact hacc kv hmem
        · have : kv = (e.date.monthCode, ⟨e.date, e.value⟩) := by simpa using hmem
          subst this
          exact ⟨rfl, hl e (List.mem_cons_self _ _)⟩
      · rw [hfind] at hkv
        dsimp only at hkv
        by_cases hlt : kv0.2.date.code < e.date.code
        · rw [if_pos hlt] at hkv
          obtain ⟨kv', hkv', rfl⟩ := List.mem_map.mp hkv
          by_cases hk : kv'.1 == e.date.monthCode
          · simp only [hk, if_true]
            have : kv'.1 = e.date.monthCode := by simpa using hk
            exact ⟨this, hl e (List.mem_cons_self _ _)⟩
          · simp only [hk, Bool.false_eq_true, if_false]
            exact hacc kv' hkv'
        · rw [if_neg hlt] at hkv
          exact hacc kv hkv
  exact aux entries [] hval (by intro kv hkv; cases hkv)

lemma foldl_min_ge_one : ∀ (ks : List Nat) (k : Nat), 1 ≤ k →
    (∀ x ∈ ks, 1 ≤ x) → 1 ≤ ks.foldl min k := by
  intro ks
  induction ks with
  | nil => intro k hk _; exact hk
  | cons x t ih =>
    intro k hk hall
    exact ih (min k x) (le_min hk (hall x (List.mem_cons_self _ _)))
      (fun y hy => hall y (List.mem_cons_of_mem _ hy))

lemma startCode_ge_one (entries : List HistEntry)
    (hval : ∀ e ∈ entries, e.date.Valid) : 1 ≤ startCode entries := by
  unfold startCode
  rcases hmap : (perMonthFold entries).map Prod.fst with _ | ⟨k, ks⟩
  · norm_num [Date.monthCode, monthCode, gameStartDate]
  · have hall : ∀ x ∈ (perMonthFold entries).map Prod.fst, 1 ≤ x := by
      intro x hx
      obtain ⟨kv, hkv, rfl⟩ := List.mem_map.mp hx
      have hinv := perMonthFold_inv entries hval kv hkv
      have hv := hinv.2.1
      rw [hinv.1]
      unfold Date.monthCode monthCode
      omega
    rw [hmap] at hall
    exact foldl_min_ge_one ks k (hall k (List.mem_cons_self _ _))
      (fun x hx => hall x (List.mem_cons_of_mem _ hx))

lemma monthCode_decode {c : Nat} (hc : 1 ≤ c) :
    monthCode (decodeMonth c).1 (decodeMonth c).2 = c := by
  unfold monthCode decodeMonth
  simp only
  omega

lemma decodeMonth_m_bounds (c : Nat) :
    1 ≤ (decodeMonth c).2 ∧ (decodeMonth c).2 ≤ 12 := by
  unfold decodeMonth
  simp only
  omega

lemma incMonth_code {y m : Nat} (h1 : 1 ≤ m) (h2 : m ≤ 12) :
    monthCode (incMonth y m).1 (incMonth y m).2 = monthCode y m + 1 ∧
    1 ≤ (incMonth y m).2 ∧ (incMonth y m).2 ≤ 12 := by
  unfold incMonth monthCode
  split_ifs with h <;> simp <;> omega

/-- The month loop emits exactly one point per month of
`[monthCode y m, endCode]`, each carrying a valid date within its month,
taken from the stored map or placed at the month's boundary date. -/
lemma fillGo_months (prices : Prices) (perMonth : List (Nat × MPoint))
    (currentDate : Date) (endCode : Nat)
    (hpm : ∀ kv ∈ perMonth, kv.1 = kv.2.date.monthCode ∧ kv.2.date.Valid)
    (hcur : currentDate.Valid) (hend : currentDate.monthCode = endCode) :
    ∀ fuel y m (txs : List Tx) (shares : List (String × ℚ)) (cash : ℚ),
      1 ≤ m → m ≤ 12 →
      endCode + 1 - monthCode y m ≤ fuel →
      ((fillGo prices perMonth currentDate endCode fuel y m txs shares cash).map
          (fun pt => pt.date.monthCode)
        = List.range' (monthCode y m) (endCode + 1 - monthCode y m)) ∧
      (∀ pt ∈ fillGo prices perMonth currentDate endCode fuel y m txs shares cash,
        pt.date.Valid ∧
          ((∃ kv ∈ perMonth, kv.2 = pt) ∨
            pt.date = monthEndDate pt.date.y pt.date.m ∨ pt.date = currentDate)) := by
  intro fuel
  induction fuel with
  | zero =>
    intro y m txs shares cash hm1 hm2 hfuel
    have h0 : endCode + 1 - monthCode y m = 0 := by omega
    rw [h0]
    exact ⟨rfl, by intro pt hpt; cases hpt⟩
  | succ fuel ih =>
    intro y m txs shares cash hm1 hm2 hfuel
    by_cases hcode : monthCode y m ≤ endCode
    · rw [fillGo, if_pos hcode]
      dsimp only
      obtain ⟨hinc, hincm1, hincm2⟩ := @incMonth_code y m hm1 hm2
      generalize hud : (if monthCode y m = endCode ∧
          currentDate.code < (monthEndDate y m).code then currentDate
        else monthEndDate y m) = ud
      generalize hres : applyTxs ud txs shares cash = res
      have harith : endCode + 1 - monthCode y m
          = (endCode + 1 - (monthCode y m + 1)) + 1 := by omega
      have hudValid : ud.Valid := by
        by_cases hcase : monthCode y m = endCode ∧
            currentDate.code < (monthEndDate y m).code
        · rw [if_pos hcase] at hud
          rw [← hud]
          exact hcur
        · rw [if_neg hcase] at hud
          rw [← hud]
          refine ⟨hm1, hm2, ?_, le_refl _⟩
          show 1 ≤ daysInMonth y m
          have := daysInMonth_ge y m
          omega
      have hudBoundary : ud = monthEndDate ud.y ud.m ∨ ud = currentDate := by
        by_cases hcase : monthCode y m = endCode ∧
            currentDate.code < (monthEndDate y m).code
        · rw [if_pos hcase] at hud
          exact Or.inr hud.symm
        · rw [if_neg hcase] at hud
          left
          rw [← hud]
          rfl
      have hudMonth : ud.monthCode = monthCode y m := by
        by_cases hcase : monthCode y m = endCode ∧
            currentDate.code < (monthEndDate y m).code
        · rw [if_pos hcase] at hud
          rw [← hud, hend]
          exact hcase.1.symm
        · rw [if_neg hcase] at hud
          rw [← hud]
          rfl
      have hrest := ih (incMonth y m).1 (incMonth y m).2 res.1 res.2.1 res.2.2
        hincm1 hincm2 (by rw [hinc]; omega)
      rcases hfind : perMonth.find?
          (fun kv : Nat × MPoint => kv.1 == monthCode y m) with _ | kv
      · dsimp only
        constructor
        · rw [List.map_cons, hrest.1, hinc, harith, List.range'_succ]
          congr 1
        · intro pt hpt
          rcases List.mem_cons.mp hpt with hpt | hpt
          · subst hpt
            exact ⟨hudValid, Or.inr hudBoundary⟩
          · exact hrest.2 pt hpt
      · dsimp only
        have hkv_mem := List.mem_of_find?_eq_some hfind
        have hkv_pred : kv.1 = monthCode y m := by
          simpa using List.find?_some hfind
        have hkv_inv := hpm kv hkv_mem
        constructor
        · rw [List.map_cons, hrest.1, hinc, harith, List.range'_succ]
          congr 1
          rw [← hkv_inv.1, hkv_pred]
        · intro pt hpt
          rcases List.mem_cons.mp hpt with hpt | hpt
          · subst hpt
            exact ⟨hkv_inv.2, Or.inl ⟨kv, hkv_mem, rfl⟩⟩
          · exact hrest.2 pt hpt
    · rw [fillGo, if_neg hcode]
      have h0 : endCode + 1 - monthCode y m = 0 := by omega
      rw [h0]
      exact ⟨rfl, by intro pt hpt; cases hpt⟩


/-- Months compare like full dates: an earlier month means an earlier date,
whatever the days are. -/
lemma code_lt_of_monthCode_lt {a b : Date} (ha : a.Valid) (hb : b.Valid)
    (h : a.monthCode < b.monthCode) : a.code < b.code := by
  obtain ⟨a1, a2, a3, a4⟩ := ha
  obtain ⟨b1, b2, b3, b4⟩ := hb
  have ha31 : a.d ≤ 31 := le_trans a4 (daysInMonth_le _ _)
  have hb31 : b.d ≤ 31 := le_trans b4 (daysInMonth_le _ _)
  unfold Date.monthCode monthCode at h
  unfold Date.code
  omega

/-- C1: the reconstruction emits exactly one monthly point per calendar
month from the earliest stored month (the game-start month when the history
is empty) through the month of `currentDate`, in order, with no gaps and no
duplicates — whatever the stored entries, transactions and price series. -/
theorem reconstruction_completeness (prices : Prices) (entries : List HistEntry)
    (currentDate : Date) (txs : List Tx)
    (hval : ∀ e ∈ entries, e.date.Valid) (hcur : currentDate.Valid) :
    (computeFilledMonthlyHistory prices entries currentDate txs).map
        (fun pt => pt.date.monthCode)
      = List.range' (startCode entries)
          (currentDate.monthCode + 1 - startCode entries) := by
  have hpm := perMonthFold_inv entries hval
  have hstart1 := startCode_ge_one entries hval
  have hdec := monthCode_decode hstart1
  have hmb := decodeMonth_m_bounds (startCode entries)
  unfold computeFilledMonthlyHistory
  dsimp only
  have hfill := fillGo_months prices (perMonthFold entries) currentDate
    currentDate.monthCode hpm hcur rfl
    (currentDate.monthCode + 1 - startCode entries)
    (decodeMonth (startCode entries)).1 (decodeMonth (startCode entries)).2
    (List.insertionSort txLe txs) [] (initialCash entries)
    hmb.1 hmb.2 (by rw [hdec])
  set out := fillGo prices (perMonthFold entries) currentDate
    currentDate.monthCode (currentDate.monthCode + 1 - startCode entries)
    (decodeMonth (startCode entries)).1 (decodeMonth (startCode entries)).2
    (List.insertionSort txLe txs) [] (initialCash entries) with hout
  have hmap := hfill.1
  rw [hdec] at hmap
  have hpairlt : out.Pairwise (fun a b => a.date.monthCode < b.date.monthCode) := by
    have hr := List.pairwise_lt_range' (startCode entries)
      (currentDate.monthCode + 1 - startCode entries) 1 (by omega)
    rw [← hmap] at hr
    exact (List.pairwise_map).mp hr
  have hsorted : out.Sorted mpLe := by
    refine List.Pairwise.imp_of_mem ?_ hpairlt
    intro a b ha hb hlt
    have hav := (hfill.2 a ha).1
    have hbv := (hfill.2 b hb).1
    unfold mpLe
    exact le_of_lt (code_lt_of_monthCode_lt hav hbv hlt)
  rw [List.Sorted.insertionSort_eq hsorted, hmap]

/-- Witness for C1: one stored entry in 2020-01 and a current date in
2021-06 produce exactly the 18 consecutive months 2020-01 .. 2021-06. -/
theorem reconstruction_completeness_witness :
    (computeFilledMonthlyHistory (fun _ => [])
        [⟨⟨2020, 1, 15⟩, TimeOfDay.tOpen, 10000⟩] ⟨2021, 6, 1⟩ []).map
        (fun pt => pt.date.monthCode)
      = List.range' (startCode [⟨⟨2020, 1, 15⟩, TimeOfDay.tOpen, 10000⟩])
          (Date.monthCode ⟨2021, 6, 1⟩ + 1
            - startCode [⟨⟨2020, 1, 15⟩, TimeOfDay.tOpen, 10000⟩]) :=
  reconstruction_completeness (fun _ => [])
    [⟨⟨2020, 1, 15⟩, TimeOfDay.tOpen, 10000⟩] ⟨2021, 6, 1⟩ []
    (by decide) (by decide)

end NewGame
